import Mathlib

/-!
Verification of the file-organizer core (`src/organizor.py`, class `FileOrganizer`).

The filesystem is shallow-embedded as a finite list of (path, file-id) pairs
plus a finite list of directory paths; a path is the list of its components
from the root.  File contents are opaque identifiers that moves carry along.
Python's `os`/`shutil` primitives used by the source are modelled explicitly:

* `os.path.splitext`    → `splitext` (last dot of the final component,
  skipping a run of leading dots, as in CPython's `posixpath._splitext`);
* `os.path.exists`      → `FS.existsPath`;
* `os.makedirs(..., exist_ok=True)` → `FS.makedirs` (creates every missing
  ancestor in order, error if a file occupies one of them; the error value
  carries the filesystem after the partial effects);
* `shutil.move`         → `FS.move` (if the destination is an existing
  directory the source is moved inside it under its own base name,
  otherwise an existing destination file is overwritten);
* `os.listdir` + `os.path.isfile` filtering → `FS.listFiles`
  (directory-listing order is the order of the `files` list);
* `os.walk(target, topdown=False)` + `os.rmdir` of empty dirs →
  `FS.cleanupBelow` (attempts every directory strictly below the target,
  deepest first, removing those that are empty when attempted).

The persistent state of the class (`organization_history.json`, the timeline
file) is the `Store` structure: `histFile` is the parsed list of operations
in the history file and `timeline` abstracts the append-only timeline as the
list of appended operations.  Timestamps (`datetime.now()`) are irrelevant to
every claim and are omitted from the operation record.

Failures of `shutil.move` that come from outside the model (permissions,
devices) are injected through the `bad` predicate given to
`organize_by_type`: a move whose source path satisfies `bad` raises.
The `while` loop of `_get_unique_path` is modelled with fuel one larger than
the number of existing filesystem entries; the pigeonhole lemmas below prove
that this fuel never runs out, so the model agrees with the unbounded loop.
-/

namespace FilesOrganizor

/-- A filesystem path: the list of its components from the root.
`os.path.join(a, b)` becomes `a ++ [b]`, `os.path.dirname` becomes
`List.dropLast`, `os.path.basename` becomes `List.getLast?`. -/
abbrev Path := List String

/-- Opaque identity of a file's content; `shutil.move` carries it along. -/
abbrev FileId := Nat

/-- One entry of the `operations` array recorded by `organize_by_type`:
`{'operation': 'move', 'source': ..., 'destination': ...}`. -/
structure MoveRecord where
  source : Path
  destination : Path
deriving DecidableEq, Repr

/-- One operation object of `organization_history.json`
(`timestamp` omitted: no claim depends on it). -/
structure Operation where
  opType : String
  source_dir : Path
  target_dir : Path
  operations : List MoveRecord
deriving DecidableEq, Repr

/-- The filesystem: files with their contents, and the set of directories.
Listing order of `os.listdir` is the order of the `files` list. -/
structure FS where
  files : List (Path × FileId)
  dirs : List Path
deriving DecidableEq, Repr

/-- Persistent state of `FileOrganizer`: the filesystem plus the two log
files owned by the class (`organization_history.json` as the parsed list of
operations, `timeline.txt` as the list of appended entries). -/
structure Store where
  fs : FS
  histFile : List Operation
  timeline : List Operation
deriving DecidableEq, Repr

/-- Error kinds of `organize_by_type`: `FileNotFoundError` for a missing
source directory, or a propagated filesystem error mid-batch. -/
inductive OrgErrKind where
  | notFound
  | fsError
deriving DecidableEq, Repr

/-- Result of a successful `organize_by_type` call: the updated persistent
state together with the Python return value of the function
(the source is annotated `-> None` and has no `return` statement,
so `retval` is always `none`). -/
structure OrgOk where
  store : Store
  retval : Option Operation
deriving DecidableEq, Repr

/-- `str.lower`, restricted to the ASCII range that file extensions use. -/
def strLower (s : String) : String :=
  ⟨s.data.map Char.toLower⟩

/-- Index of the last dot of a component, if any. -/
def lastDotIdx (cs : List Char) : Option Nat :=
  match cs.reverse.findIdx? (fun c => c == '.') with
  | none => none
  | some j => some (cs.length - 1 - j)

/-- `os.path.splitext` on a single path component: split at the last dot
provided some earlier character of the component is not a dot
(CPython skips the leading dots of the base name). -/
def splitext (name : String) : String × String :=
  match lastDotIdx name.data with
  | none => (name, ⟨[]⟩)
  | some d =>
    if (name.data.take d).any (fun c => c != '.') then
      (⟨name.data.take d⟩, ⟨name.data.drop d⟩)
    else (name, ⟨[]⟩)

/-- The `self.file_types` table of `FileOrganizer.__init__`, in declaration
order (Python dicts preserve insertion order). -/
def file_types : List (String × List String) :=
  [ (r"images", [r".jpg", r".jpeg", r".png", r".gif", r".bmp", r".tiff", r".heic", r".raw"])
  , (r"documents", [r".pdf", r".doc", r".docx", r".txt", r".rtf", r".odt", r".pages"])
  , (r"spreadsheets", [r".xls", r".xlsx", r".numbers", r".csv"])
  , (r"presentations", [r".ppt", r".pptx", r".key"])
  , (r"videos", [r".mp4", r".mov", r".avi", r".wmv", r".flv", r".mkv"])
  , (r"audio", [r".mp3", r".wav", r".aac", r".m4a", r".flac"])
  , (r"archives", [r".zip", r".rar", r".7z", r".tar", r".gz"])
  , (r"code", [r".py", r".java", r".cpp", r".js", r".html", r".css", r".php", r".c", r".ts"])
  , (r"others", []) ]

/-- The category loop of `organize_by_type` (lines 79-83): start from
`'others'`, scan the table in order, `break` on the first list containing
the lower-cased extension. -/
def getCategoryAux (ext : String) : List (String × List String) → String
  | [] => r"others"
  | (ft, exts) :: rest =>
    if exts.contains (strLower ext) then ft else getCategoryAux ext rest

/-- Category of a file extension, as computed by the source. -/
def getCategory (ext : String) : String :=
  getCategoryAux ext file_types

/-- Modelled from the spec's words, for comparison with `getCategory`:
"Lookup is first-match over the table's declared category order;
unrecognized extensions resolve to the fallback category." -/
def categorySpec (ext : String) : String :=
  ((file_types.find? (fun p => p.2.contains (strLower ext))).map Prod.fst).getD (r"others")

/-- Value of a decimal digit character (used to invert `Nat.repr`). -/
def digitVal (c : Char) : Nat := c.toNat - 48

/-- Value of a decimal digit string (used to invert `Nat.repr`). -/
def charsVal (cs : List Char) : Nat :=
  cs.foldl (fun a c => 10 * a + digitVal c) 0

/-- Paths of all files. -/
def FS.filePaths (fs : FS) : List Path :=
  fs.files.map Prod.fst

/-- `os.path.isfile`. -/
def FS.isFile (fs : FS) (p : Path) : Bool :=
  fs.files.any (fun q => q.1 == p)

/-- `os.path.isdir`. -/
def FS.isDir (fs : FS) (p : Path) : Bool :=
  fs.dirs.any (fun q => q == p)

/-- `os.path.exists`. -/
def FS.existsPath (fs : FS) (p : Path) : Bool :=
  fs.isFile p || fs.isDir p

/-- Content found at a file path, if any. -/
def FS.getFile (fs : FS) (p : Path) : Option FileId :=
  (fs.files.find? (fun q => q.1 == p)).map Prod.snd

/-- `p` is an immediate child of directory `d`. -/
def isChildOf (p d : Path) : Bool :=
  !p.isEmpty && p.dropLast == d

/-- `[f for f in os.listdir(d) if os.path.isfile(os.path.join(d, f))]`:
names of the files directly inside `d`, in listing order. -/
def FS.listFiles (fs : FS) (d : Path) : List String :=
  fs.files.filterMap (fun q => if isChildOf q.1 d then q.1.getLast? else none)

/-- The nonempty prefixes of a path, shortest first: the chain of
directories `os.makedirs` ensures, ending with the path itself. -/
def pathPrefixes (p : Path) : List Path :=
  (List.range p.length).map (fun i => p.take (i + 1))

/-- One `os.mkdir` step as `os.makedirs` performs it: a file in the way is
an error (`FileExistsError`), an existing directory is fine (`exist_ok`),
otherwise the directory is created.  The error value carries the unchanged
filesystem. -/
def FS.mkdirOne (fs : FS) (d : Path) : Except FS FS :=
  if fs.isFile d then .error fs
  else if fs.isDir d then .ok fs
  else .ok { fs with dirs := fs.dirs ++ [d] }

/-- Recursion of `os.makedirs` over the reversed component list:
ensure the parent chain, then make the directory itself. -/
def FS.makedirsAux (fs : FS) : List String → Except FS FS
  | [] => .ok fs
  | h :: tl =>
    match fs.makedirsAux tl with
    | .error e => .error e
    | .ok fs1 => fs1.mkdirOne (h :: tl).reverse

/-- `os.makedirs(p, exist_ok=True)`.  (The source's only call without
`exist_ok` is guarded by `not os.path.exists`, where both agree.) -/
def FS.makedirs (fs : FS) (p : Path) : Except FS FS :=
  fs.makedirsAux p.reverse

/-- `shutil.move src dst` for a source file: if `dst` is an existing
directory the file is moved inside it under its base name; moving onto an
existing directory path fails; an existing destination file is overwritten
(`os.rename` semantics).  Errors carry the unchanged filesystem. -/
def FS.move (fs : FS) (src dst : Path) : Except FS FS :=
  match fs.getFile src with
  | none => .error fs
  | some fid =>
    let realDst := if fs.isDir dst then dst ++ src.getLast?.toList else dst
    if fs.isDir realDst then .error fs
    else .ok { fs with
      files := fs.files.filter (fun q => !(q.1 == src) && !(q.1 == realDst)) ++ [(realDst, fid)] }

/-- The candidate name `f"{base}_{counter}{ext}"` of `_get_unique_path`. -/
def uniqueName (base ext : String) (i : Nat) : String :=
  base ++ (r"_") ++ Nat.repr i ++ ext

/-- The `while os.path.exists(...)` counter search of `_get_unique_path`,
with fuel (the lemmas below show the fuel chosen in `getUniquePath` always
suffices, so this agrees with the unbounded loop of the source). -/
def FS.findFreeCounter (fs : FS) (dir : Path) (base ext : String) : Nat → Nat → Nat
  | 0, c => c
  | fuel + 1, c =>
    if fs.existsPath (dir ++ [uniqueName base ext c]) then
      fs.findFreeCounter dir base ext fuel (c + 1)
    else c

/-- `_get_unique_path` (lines 95-103): an unoccupied path is returned
unchanged, otherwise `_1`, `_2`, … are appended before the extension and
the first free candidate is returned. -/
def FS.getUniquePath (fs : FS) (p : Path) : Path :=
  if fs.existsPath p then
    match p.getLast? with
    | none => p
    | some name =>
      let be := splitext name
      let c := fs.findFreeCounter p.dropLast be.1 be.2 (fs.files.length + fs.dirs.length + 1) 1
      p.dropLast ++ [uniqueName be.1 be.2 c]
  else p

/-- `not os.listdir(d)`: the directory has no entry directly inside it. -/
def FS.isEmptyDir (fs : FS) (d : Path) : Bool :=
  !(fs.files.any (fun q => isChildOf q.1 d) || fs.dirs.any (fun q => isChildOf q d))

/-- One guarded `os.rmdir` of the cleanup loop: remove the directory only
if it is (still) present and empty; every `OSError` is swallowed. -/
def FS.rmdirIfEmpty (fs : FS) (d : Path) : FS :=
  if fs.isDir d && fs.isEmptyDir d then
    { fs with dirs := fs.dirs.filter (fun q => !(q == d)) }
  else fs

/-- The directories `os.walk(target, topdown=False)` attempts to remove:
every directory strictly below the target, as present at walk time. -/
def cleanupCands (fs : FS) (target : Path) : List Path :=
  fs.dirs.filter (fun d => decide (target <+: d) && !(d == target))

/-- Attempt the candidates of one depth. -/
def FS.cleanupGroup (fs : FS) (cands : List Path) (n : Nat) : FS :=
  (cands.filter (fun d => d.length == n)).foldl FS.rmdirIfEmpty fs

/-- Attempt all candidates of depth `n`, then `n - 1`, … then `0`. -/
def FS.cleanupFrom (fs : FS) (cands : List Path) : Nat → FS
  | 0 => fs.cleanupGroup cands 0
  | n + 1 => (fs.cleanupGroup cands (n + 1)).cleanupFrom cands n

/-- The cleanup phase of `undo_last_operation` (lines 192-200): walk the
target bottom-up and remove every directory that is empty when attempted.
Bottom-up means children are attempted before their parents, i.e. depths
in decreasing order; the order inside one depth does not matter because
such attempts are independent. -/
def FS.cleanupBelow (fs : FS) (target : Path) : FS :=
  let cands := cleanupCands fs target
  fs.cleanupFrom cands (cands.foldr (fun d m => max d.length m) 0)

/-- The operation object built by `_record_operation` /
the undo record of `undo_last_operation` (timestamp omitted). -/
def mkOperation (opType : String) (source_dir target_dir : Path) (ops : List MoveRecord) : Operation :=
  { opType := opType, source_dir := source_dir, target_dir := target_dir, operations := ops }

/-- The per-file body of the `organize_by_type` loop (lines 76-92):
resolve the category, ensure the category directory, compute the unique
destination, move, and append the record.  A failing move (injected via
`bad`, matching external `shutil.move` failures) or a failing `makedirs`
aborts the batch; the error carries the filesystem as mutated so far and
the records accumulated before the failure. -/
def organizeLoop (bad : Path → Bool) (source_dir target_dir : Path) :
    List String → FS → List MoveRecord → Except (FS × List MoveRecord) (FS × List MoveRecord)
  | [], fs, ops => .ok (fs, ops)
  | f :: rest, fs, ops =>
    let file_path := source_dir ++ [f]
    let category := getCategory (splitext f).2
    let category_dir := target_dir ++ [category]
    match fs.makedirs category_dir with
    | .error e => .error (e, ops)
    | .ok fs1 =>
      let new_path := fs1.getUniquePath (category_dir ++ [f])
      if bad file_path then .error (fs1, ops)
      else
        match fs1.move file_path new_path with
        | .error e => .error (e, ops)
        | .ok fs2 =>
          organizeLoop bad source_dir target_dir rest fs2
            (ops ++ [{ source := file_path, destination := new_path }])

/-- `organize_by_type(source_dir, dest_dir)` (lines 67-93).  Checks the
source exists, defaults and creates the target, lists the source's files,
runs the move loop, then commits the batch through `_record_operation`
(history becomes the single new operation; timeline appended).  On a mid-batch
failure the exception propagates: the error carries the mutated filesystem
while `histFile` and `timeline` keep their previous contents. -/
def organize_by_type (bad : Path → Bool) (st : Store) (source_dir : Path)
    (dest_dir : Option Path) : Except (OrgErrKind × Store) OrgOk :=
  if st.fs.existsPath source_dir then
    let target_dir := dest_dir.getD source_dir
    match (if st.fs.existsPath target_dir then .ok st.fs else st.fs.makedirs target_dir : Except FS FS) with
    | .error e => .error (.fsError, { st with fs := e })
    | .ok fs0 =>
      let files := fs0.listFiles source_dir
      match organizeLoop bad source_dir target_dir files fs0 [] with
      | .error (e, _) => .error (.fsError, { st with fs := e })
      | .ok (fs1, ops) =>
        let op := mkOperation (r"organize_by_type") source_dir target_dir ops
        .ok { store := { fs := fs1, histFile := [op], timeline := st.timeline ++ [op] }
            , retval := none }
  else .error (.notFound, st)

/-- One record of the undo replay loop (lines 186-189): if the recorded
destination exists, recreate the source's parent directory and move the
file back; otherwise the record is skipped. -/
def undoStep (fs : FS) (record : MoveRecord) : Except FS FS :=
  if fs.existsPath record.destination then
    match fs.makedirs record.source.dropLast with
    | .error e => .error e
    | .ok fs1 => fs1.move record.destination record.source
  else .ok fs

/-- Replay a list of records in the given order (the caller passes the
stored records reversed, as `reversed(operations)` does). -/
def undoReplay (fs : FS) : List MoveRecord → Except FS FS
  | [] => .ok fs
  | record :: rest =>
    match undoStep fs record with
    | .error e => .error e
    | .ok fs1 => undoReplay fs1 rest

/-- The `try` body of `undo_last_operation`: replay the records in reverse
order, then clean up empty folders below the target. -/
def undoTry (fs : FS) (lastOp : Operation) : Except FS FS :=
  match undoReplay fs lastOp.operations.reverse with
  | .error e => .error e
  | .ok fs1 => .ok (fs1.cleanupBelow lastOp.target_dir)

/-- `undo_last_operation` (lines 173-222).  Reload the history; an empty
history is a no-op returning `false`.  Otherwise replay the stored batch
in reverse, clean up empty folders, clear the history, append an undo
entry to the timeline and return `true`.  Any error inside the `try` is
caught: the function then returns `false`, the filesystem keeps the
partial effects, and neither log is touched. -/
def undo_last_operation (st : Store) : Store × Bool :=
  match st.histFile with
  | [] => (st, false)
  | lastOp :: _ =>
    match undoTry st.fs lastOp with
    | .ok fs1 =>
      ({ fs := fs1
       , histFile := []
       , timeline := st.timeline ++ [mkOperation (r"undo") lastOp.source_dir lastOp.target_dir []] }
      , true)
    | .error e => ({ st with fs := e }, false)

/-- Well-formed filesystem: distinct file paths, distinct directories,
no path both file and directory, no file at the root path, and every
proper nonempty prefix of a file or directory is a directory. -/
def FS.Wf (fs : FS) : Prop :=
  fs.filePaths.Nodup ∧ fs.dirs.Nodup ∧
  (∀ p ∈ fs.filePaths, p ∉ fs.dirs) ∧
  (∀ p ∈ fs.filePaths, p ≠ ([] : Path)) ∧
  (∀ p ∈ fs.filePaths, ∀ q ∈ pathPrefixes p, q ≠ p → q ∈ fs.dirs) ∧
  (∀ p ∈ fs.dirs, ∀ q ∈ pathPrefixes p, q ≠ p → q ∈ fs.dirs)

/-- Some file lies strictly below the directory `d`. -/
def FS.hasFileBelow (fs : FS) (d : Path) : Prop :=
  ∃ q ∈ fs.filePaths, d <+: q ∧ d ≠ q

/-- All occupied paths: files and directories. -/
def allEntries (fs : FS) : List Path :=
  fs.filePaths ++ fs.dirs

instance (fs : FS) : Decidable fs.Wf := by
  unfold FS.Wf
  exact inferInstance

instance (fs : FS) (d : Path) : Decidable (fs.hasFileBelow d) := by
  unfold FS.hasFileBelow
  exact inferInstance

/-- A state where a top-level file of the source shares its name with a
category folder that the organize pass creates: a file named `images`
(no extension, category `others`) next to `b.jpg` (category `images`). -/
def cexStore : Store :=
  { fs := { files := [([r"a", r"images"], 0), ([r"a", r"b.jpg"], 1)], dirs := [[r"a"]] }
  , histFile := [], timeline := [] }

/-- The spec's three-file scenario: `a.jpg`, `b.txt`, `c.xyz` directly
under a source directory organized in place. -/
def scnStore : Store :=
  { fs := { files := [([r"s", r"a.jpg"], 0), ([r"s", r"b.txt"], 1), ([r"s", r"c.xyz"], 2)]
          , dirs := [[r"s"]] }
  , histFile := [], timeline := [] }

/-- A collision state: the destination `t/images/a.jpg` is already occupied
before `s/a.jpg` is organized into `t`. -/
def colStore : Store :=
  { fs := { files := [([r"s", r"a.jpg"], 0), ([r"t", r"images", r"a.jpg"], 5)]
          , dirs := [[r"s"], [r"t"], [r"t", r"images"]] }
  , histFile := [], timeline := [] }

/-- A two-file state for exercising a mid-batch move failure: `s/b.txt`
is the second listed file and its move is the one that raises. -/
def c8Store : Store :=
  { fs := { files := [([r"s", r"a.jpg"], 0), ([r"s", r"b.txt"], 1)], dirs := [[r"s"]] }
  , histFile := [], timeline := [] }

/-- The filesystem after the first (successful) move of the `c8Store` run. -/
def c8fsK : FS :=
  { files := [([r"s", r"b.txt"], 1), ([r"s", r"images", r"a.jpg"], 0)]
  , dirs := [[r"s"], [r"s", r"images"]] }

/-- The filesystem at the point the second move of the `c8Store` run raises:
`s/documents` has just been created, `s/b.txt` has not been moved. -/
def c8fsK2 : FS :=
  { files := [([r"s", r"b.txt"], 1), ([r"s", r"images", r"a.jpg"], 0)]
  , dirs := [[r"s"], [r"s", r"images"], [r"s", r"documents"]] }

/-! ### Decimal numerals: `Nat.repr` is injective.
Needed to show the candidate names of `_get_unique_path` are pairwise
distinct, hence that a free candidate always exists. -/

theorem toDigitsCore_append (b : Nat) :
    ∀ (fuel n : Nat) (ds : List Char),
      Nat.toDigitsCore b fuel n ds = Nat.toDigitsCore b fuel n [] ++ ds := by
  intro fuel
  induction fuel with
  | zero => intro n ds; simp [Nat.toDigitsCore]
  | succ f ih =>
    intro n ds
    simp only [Nat.toDigitsCore]
    by_cases h : n / b = 0
    · simp [h]
    · rw [if_neg h, if_neg h, ih (n / b) ([Nat.digitChar (n % b)]),
        ih (n / b) (Nat.digitChar (n % b) :: ds)]
      simp

theorem digitVal_digitChar : ∀ k, k < 10 → digitVal (Nat.digitChar k) = k := by decide

theorem charsVal_append (xs : List Char) (c : Char) :
    charsVal (xs ++ [c]) = 10 * charsVal xs + digitVal c := by
  simp [charsVal, List.foldl_append]

theorem charsVal_toDigitsCore :
    ∀ fuel n, n < 10 ^ fuel → charsVal (Nat.toDigitsCore 10 fuel n []) = n := by
  intro fuel
  induction fuel with
  | zero =>
    intro n h
    have : n = 0 := by simpa using h
    subst this
    simp [Nat.toDigitsCore, charsVal]
  | succ f ih =>
    intro n h
    have hmod : digitVal (Nat.digitChar (n % 10)) = n % 10 :=
      digitVal_digitChar (n % 10) (Nat.mod_lt _ (by norm_num))
    simp only [Nat.toDigitsCore]
    by_cases h0 : n / 10 = 0
    · have hn : n < 10 := by omega
      rw [if_pos h0]
      have : charsVal [Nat.digitChar (n % 10)] = digitVal (Nat.digitChar (n % 10)) := by
        simp [charsVal]
      rw [this, hmod]
      omega
    · have hdiv : n / 10 < 10 ^ f := by
        rw [Nat.div_lt_iff_lt_mul (by norm_num)]
        have := pow_succ 10 f
        omega
      rw [if_neg h0, toDigitsCore_append, charsVal_append, ih (n / 10) hdiv, hmod]
      omega

theorem charsVal_repr (n : Nat) : charsVal (Nat.repr n).data = n := by
  have h1 : n < 10 ^ n := Nat.lt_pow_self (by norm_num) n
  have h2 : (10 : Nat) ^ n ≤ 10 ^ (n + 1) := Nat.pow_le_pow_right (by norm_num) (by omega)
  exact charsVal_toDigitsCore (n + 1) n (by omega)

theorem repr_injective : Function.Injective Nat.repr := by
  intro a b h
  have hd : (Nat.repr a).data = (Nat.repr b).data := congrArg String.data h
  have := charsVal_repr a
  have := charsVal_repr b
  rw [hd] at *
  omega

theorem str_data_append (a b : String) : (a ++ b).data = a.data ++ b.data := rfl

theorem uniqueName_inj (base ext : String) {i j : Nat}
    (h : uniqueName base ext i = uniqueName base ext j) : i = j := by
  unfold uniqueName at h
  have h2 := congrArg String.data h
  simp only [str_data_append] at h2
  have h3 := List.append_cancel_right h2
  have h5 : (Nat.repr i).data = (Nat.repr j).data := List.append_cancel_left h3
  have h6 : Nat.repr i = Nat.repr j := congrArg String.mk h5
  exact repr_injective h6

/-! ### Basic bridges between the executable model and propositions. -/

theorem isFile_iff {fs : FS} {p : Path} : fs.isFile p = true ↔ p ∈ fs.filePaths := by
  simp [FS.isFile, FS.filePaths, List.any_eq_true, List.mem_map]

theorem isDir_iff {fs : FS} {p : Path} : fs.isDir p = true ↔ p ∈ fs.dirs := by
  simp [FS.isDir, List.any_eq_true]

theorem existsPath_iff {fs : FS} {p : Path} :
    fs.existsPath p = true ↔ p ∈ fs.filePaths ∨ p ∈ fs.dirs := by
  simp [FS.existsPath, isFile_iff, isDir_iff]

theorem existsPath_eq_false {fs : FS} {p : Path} :
    fs.existsPath p = false ↔ p ∉ fs.filePaths ∧ p ∉ fs.dirs := by
  rw [← Bool.not_eq_true, existsPath_iff]
  tauto

theorem existsPath_mem_allEntries {fs : FS} {p : Path} :
    fs.existsPath p = true ↔ p ∈ allEntries fs := by
  simp [existsPath_iff, allEntries]

theorem getFile_isSome_iff {fs : FS} {p : Path} :
    (fs.getFile p).isSome = true ↔ p ∈ fs.filePaths := by
  simp [FS.getFile, FS.filePaths, Option.isSome_map, List.find?_isSome, List.mem_map]

theorem getFile_eq_none_iff {fs : FS} {p : Path} :
    fs.getFile p = none ↔ p ∉ fs.filePaths := by
  rw [← getFile_isSome_iff]
  cases fs.getFile p <;> simp

theorem mem_filePaths_of_getFile {fs : FS} {p : Path} {v : FileId}
    (h : fs.getFile p = some v) : p ∈ fs.filePaths := by
  rw [← getFile_isSome_iff, h]
  rfl

theorem getFile_some_exists {fs : FS} {p : Path} (h : p ∈ fs.filePaths) :
    ∃ v, fs.getFile p = some v := by
  rw [← getFile_isSome_iff] at h
  cases hg : fs.getFile p
  · rw [hg] at h; exact absurd h (by simp)
  · exact ⟨_, rfl⟩

theorem mem_pathPrefixes {q p : Path} :
    q ∈ pathPrefixes p ↔ q ≠ [] ∧ q <+: p := by
  simp only [pathPrefixes, List.mem_map, List.mem_range]
  constructor
  · rintro ⟨i, hi, rfl⟩
    constructor
    · have : (p.take (i + 1)).length = i + 1 := by
        rw [List.length_take]
        omega
      intro hnil
      rw [hnil] at this
      simp at this
    · exact List.take_prefix _ _
  · rintro ⟨hne, hpre⟩
    refine ⟨q.length - 1, ?_, ?_⟩
    · have h1 := hpre.length_le
      have h2 : 0 < q.length := List.length_pos.mpr hne
      omega
    · have h2 : 0 < q.length := List.length_pos.mpr hne
      have h3 : q.length - 1 + 1 = q.length := by omega
      rw [h3]
      exact (List.prefix_iff_eq_take.mp hpre).symm

theorem isChildOf_iff {p d : Path} :
    isChildOf p d = true ↔ p ≠ [] ∧ p.dropLast = d := by
  simp [isChildOf]

theorem isChildOf_prefix {p d : Path} (h : isChildOf p d = true) : d <+: p ∧ d ≠ p := by
  obtain ⟨hne, hdl⟩ := isChildOf_iff.mp h
  subst hdl
  constructor
  · exact List.dropLast_prefix p
  · intro he
    have := congrArg List.length he
    rw [List.length_dropLast] at this
    have : 0 < p.length := List.length_pos.mpr hne
    omega

theorem child_step {d p : Path} (h : d <+: p) (hne : d ≠ p) :
    isChildOf (p.take (d.length + 1)) d = true ∧ p.take (d.length + 1) <+: p := by
  have hlt : d.length < p.length := by
    have h1 := h.length_le
    rcases Nat.lt_or_ge d.length p.length with h2 | h2
    · exact h2
    · exfalso
      apply hne
      have : d.length = p.length := by omega
      have h3 := List.prefix_iff_eq_take.mp h
      rw [this, List.take_length] at h3
      exact h3
  refine ⟨?_, List.take_prefix _ _⟩
  rw [isChildOf_iff]
  constructor
  · have : (p.take (d.length + 1)).length = d.length + 1 := by
      rw [List.length_take]
      omega
    intro hnil
    rw [hnil] at this
    simp at this
  · have h1 : (p.take (d.length + 1)).dropLast = p.take d.length := by
      rw [List.dropLast_eq_take, List.take_take, List.length_take]
      congr 1
      omega
    rw [h1]
    exact (List.prefix_iff_eq_take.mp h).symm

theorem prefix_concat_cases {q t : Path} {c : String} (h : q <+: t ++ [c]) :
    q = t ++ [c] ∨ q <+: t := by
  rcases h with ⟨r, hr⟩
  rcases List.eq_nil_or_concat r with rfl | ⟨r2, a, rfl⟩
  · left; rw [← hr, List.append_nil]
  · right
    rw [List.concat_eq_append, ← List.append_assoc] at hr
    have h2 : q ++ r2 = t := by
      have h3 := congrArg List.dropLast hr
      simpa using h3
    exact ⟨r2, h2⟩

/-! ### `_get_unique_path`: a free candidate always exists, and the fueled
search returns the first free one (so the model agrees with the source's
unbounded `while` loop). -/

theorem exists_free_candidate (fs : FS) (dir : Path) (base ext : String) (start : Nat) :
    ∃ j, j ≤ (allEntries fs).length ∧
      fs.existsPath (dir ++ [uniqueName base ext (start + j)]) = false := by
  by_contra hc
  push_neg at hc
  set N := (allEntries fs).length with hN
  have hmem : ∀ j, j ≤ N → (dir ++ [uniqueName base ext (start + j)]) ∈ allEntries fs := by
    intro j hj
    have := hc j hj
    rw [← existsPath_mem_allEntries]
    cases he : fs.existsPath (dir ++ [uniqueName base ext (start + j)])
    · exact absurd he this
    · rfl
  have hinj : Function.Injective (fun j : Nat => dir ++ [uniqueName base ext (start + j)]) := by
    intro a b hab
    simp only at hab
    have h1 := List.append_cancel_left hab
    have h2 : uniqueName base ext (start + a) = uniqueName base ext (start + b) := by
      simpa using h1
    have := uniqueName_inj base ext h2
    omega
  have hsub : (Finset.range (N + 1)).image (fun j => dir ++ [uniqueName base ext (start + j)])
      ⊆ (allEntries fs).toFinset := by
    intro x hx
    rw [Finset.mem_image] at hx
    obtain ⟨j, hj, rfl⟩ := hx
    rw [List.mem_toFinset]
    exact hmem j (by simpa using Nat.lt_succ_iff.mp (Finset.mem_range.mp hj))
  have hcard := Finset.card_le_card hsub
  rw [Finset.card_image_of_injective _ hinj, Finset.card_range] at hcard
  have := List.toFinset_card_le (allEntries fs)
  omega

theorem findFreeCounter_spec (fs : FS) (dir : Path) (base ext : String) :
    ∀ (fuel c : Nat),
      (∃ j, j < fuel ∧ fs.existsPath (dir ++ [uniqueName base ext (c + j)]) = false) →
      c ≤ fs.findFreeCounter dir base ext fuel c ∧
      fs.existsPath (dir ++ [uniqueName base ext (fs.findFreeCounter dir base ext fuel c)]) = false ∧
      ∀ m, c ≤ m → m < fs.findFreeCounter dir base ext fuel c →
        fs.existsPath (dir ++ [uniqueName base ext m]) = true := by
  intro fuel
  induction fuel with
  | zero =>
    intro c h
    obtain ⟨j, hj, _⟩ := h
    omega
  | succ f ih =>
    intro c h
    simp only [FS.findFreeCounter]
    by_cases he : fs.existsPath (dir ++ [uniqueName base ext c]) = true
    · rw [if_pos he]
      have hex : ∃ j, j < f ∧ fs.existsPath (dir ++ [uniqueName base ext (c + 1 + j)]) = false := by
        obtain ⟨j, hj, hfree⟩ := h
        have hj0 : j ≠ 0 := by
          intro h0
          rw [h0, Nat.add_zero] at hfree
          rw [he] at hfree
          exact absurd hfree (by simp)
        refine ⟨j - 1, by omega, ?_⟩
        have : c + 1 + (j - 1) = c + j := by omega
        rw [this]
        exact hfree
      obtain ⟨h1, h2, h3⟩ := ih (c + 1) hex
      refine ⟨by omega, h2, ?_⟩
      intro m hm1 hm2
      rcases Nat.eq_or_lt_of_le hm1 with rfl | hlt
      · exact he
      · exact h3 m (by omega) hm2
    · rw [if_neg he]
      refine ⟨Nat.le_refl c, ?_, ?_⟩
      · cases hb : fs.existsPath (dir ++ [uniqueName base ext c])
        · rfl
        · exact absurd hb he
      · intro m hm1 hm2
        omega

theorem getUniquePath_of_not_exists {fs : FS} {p : Path}
    (h : fs.existsPath p = false) : fs.getUniquePath p = p := by
  simp [FS.getUniquePath, h]

theorem getUniquePath_spec {fs : FS} {p : Path} (hne : p ≠ [])
    (h : fs.existsPath p = true) :
    ∃ k, 1 ≤ k ∧
      fs.getUniquePath p =
        p.dropLast ++ [uniqueName (splitext (p.getLast hne)).1 (splitext (p.getLast hne)).2 k] ∧
      fs.existsPath (p.dropLast ++
        [uniqueName (splitext (p.getLast hne)).1 (splitext (p.getLast hne)).2 k]) = false ∧
      ∀ m, 1 ≤ m → m < k →
        fs.existsPath (p.dropLast ++
          [uniqueName (splitext (p.getLast hne)).1 (splitext (p.getLast hne)).2 m]) = true := by
  have hlast : p.getLast? = some (p.getLast hne) := List.getLast?_eq_getLast p hne
  obtain ⟨j, hj, hfree⟩ :=
    exists_free_candidate fs p.dropLast (splitext (p.getLast hne)).1 (splitext (p.getLast hne)).2 1
  have hful : ∃ j2, j2 < fs.files.length + fs.dirs.length + 1 ∧
      fs.existsPath (p.dropLast ++
        [uniqueName (splitext (p.getLast hne)).1 (splitext (p.getLast hne)).2 (1 + j2)]) = false := by
    refine ⟨j, ?_, hfree⟩
    have : (allEntries fs).length = fs.files.length + fs.dirs.length := by
      simp [allEntries, FS.filePaths]
    omega
  obtain ⟨h1, h2, h3⟩ := findFreeCounter_spec fs p.dropLast
    (splitext (p.getLast hne)).1 (splitext (p.getLast hne)).2
    (fs.files.length + fs.dirs.length + 1) 1 hful
  refine ⟨_, h1, ?_, h2, h3⟩
  simp [FS.getUniquePath, h, hlast]

theorem getUniquePath_fresh {fs : FS} {p : Path} (hne : p ≠ []) :
    fs.existsPath (fs.getUniquePath p) = false := by
  by_cases h : fs.existsPath p = true
  · obtain ⟨k, _, heq, hf, _⟩ := getUniquePath_spec hne h
    rw [heq]
    exact hf
  · have h2 : fs.existsPath p = false := by
      cases hb : fs.existsPath p
      · rfl
      · exact absurd hb h
    rw [getUniquePath_of_not_exists h2]
    exact h2

theorem getUniquePath_dropLast {fs : FS} {p : Path} (hne : p ≠ []) :
    (fs.getUniquePath p).dropLast = p.dropLast := by
  by_cases h : fs.existsPath p = true
  · obtain ⟨k, _, heq, _, _⟩ := getUniquePath_spec hne h
    rw [heq]
    exact List.dropLast_concat
  · have h2 : fs.existsPath p = false := by
      cases hb : fs.existsPath p
      · rfl
      · exact absurd hb h
    rw [getUniquePath_of_not_exists h2]

theorem getUniquePath_ne_nil {fs : FS} {p : Path} (hne : p ≠ []) :
    fs.getUniquePath p ≠ [] := by
  by_cases h : fs.existsPath p = true
  · obtain ⟨k, _, heq, _, _⟩ := getUniquePath_spec hne h
    rw [heq]
    simp
  · have h2 : fs.existsPath p = false := by
      cases hb : fs.existsPath p
      · rfl
      · exact absurd hb h
    rw [getUniquePath_of_not_exists h2]
    exact hne

/-! ### `os.makedirs` model lemmas. -/

theorem isDir_eq_false_iff {fs : FS} {p : Path} : fs.isDir p = false ↔ p ∉ fs.dirs := by
  rw [← Bool.not_eq_true, isDir_iff]

theorem isFile_eq_false_iff {fs : FS} {p : Path} : fs.isFile p = false ↔ p ∉ fs.filePaths := by
  rw [← Bool.not_eq_true, isFile_iff]

theorem wf_dir_not_file {fs : FS} (hwf : fs.Wf) {q : Path} (h : q ∈ fs.dirs) :
    fs.isFile q = false := by
  rw [isFile_eq_false_iff]
  intro hf
  exact hwf.2.2.1 q hf h

theorem mkdirOne_ok_spec {fs fs' : FS} {d : Path} (h : fs.mkdirOne d = .ok fs') :
    fs'.files = fs.files ∧ (∀ q ∈ fs.dirs, q ∈ fs'.dirs) ∧ d ∈ fs'.dirs ∧
    (∀ q ∈ fs'.dirs, q ∈ fs.dirs ∨ q = d) := by
  unfold FS.mkdirOne at h
  by_cases h1 : fs.isFile d = true
  · rw [if_pos h1] at h; cases h
  · rw [if_neg h1] at h
    by_cases h2 : fs.isDir d = true
    · rw [if_pos h2] at h
      cases h
      exact ⟨rfl, fun q hq => hq, isDir_iff.mp h2, fun q hq => Or.inl hq⟩
    · rw [if_neg h2] at h
      cases h
      refine ⟨rfl, fun q hq => by simp [hq], by simp, ?_⟩
      intro q hq
      rcases List.mem_append.mp hq with h3 | h3
      · exact Or.inl h3
      · exact Or.inr (by simpa using h3)

theorem mkdirOne_noop {fs : FS} {d : Path} (h1 : fs.isFile d = false)
    (h2 : fs.isDir d = true) : fs.mkdirOne d = .ok fs := by
  unfold FS.mkdirOne
  rw [h1, h2]
  rfl

theorem mkdirOne_wf {fs fs' : FS} {d : Path} (hwf : fs.Wf)
    (h : fs.mkdirOne d = .ok fs') (hne : d ≠ [])
    (hpre : ∀ q ∈ pathPrefixes d, q ≠ d → q ∈ fs.dirs) : fs'.Wf := by
  unfold FS.mkdirOne at h
  by_cases h1 : fs.isFile d = true
  · rw [if_pos h1] at h; cases h
  · rw [if_neg h1] at h
    by_cases h2 : fs.isDir d = true
    · rw [if_pos h2] at h; cases h; exact hwf
    · rw [if_neg h2] at h
      cases h
      obtain ⟨w1, w2, w3, w4, w5, w6⟩ := hwf
      refine ⟨w1, ?_, ?_, w4, ?_, ?_⟩
      · rw [List.nodup_append]
        exact ⟨w2, List.nodup_singleton d,
          fun a ha hb => (isDir_eq_false_iff.mp (by simpa using h2))
            ((by simpa using hb : a = d) ▸ ha)⟩
      · intro p hp hmem
        rcases List.mem_append.mp hmem with h3 | h3
        · exact w3 p hp h3
        · have heq : p = d := by simpa using h3
          subst heq
          have hp' : p ∈ fs.filePaths := hp
          exact absurd (isFile_iff.mpr hp') h1
      · intro p hp q hq hqp
        exact List.mem_append_left _ (w5 p hp q hq hqp)
      · intro p hp q hq hqp
        rcases List.mem_append.mp hp with h3 | h3
        · exact List.mem_append_left _ (w6 p h3 q hq hqp)
        · have : p = d := by simpa using h3
          subst this
          exact List.mem_append_left _ (hpre q hq hqp)

theorem makedirsAux_ok_spec :
    ∀ (rev : List String) (fs fs' : FS), fs.makedirsAux rev = .ok fs' →
      fs'.files = fs.files ∧
      (∀ q ∈ fs.dirs, q ∈ fs'.dirs) ∧
      (∀ q : Path, q ≠ [] → q <+: rev.reverse → q ∈ fs'.dirs) ∧
      (∀ q ∈ fs'.dirs, q ∈ fs.dirs ∨ (q ≠ [] ∧ q <+: rev.reverse)) := by
  intro rev
  induction rev with
  | nil =>
    intro fs fs' h
    cases h
    refine ⟨rfl, fun q hq => hq, ?_, fun q hq => Or.inl hq⟩
    intro q hq hpre
    rw [List.reverse_nil, List.prefix_nil] at hpre
    exact absurd hpre hq
  | cons h tl ih =>
    intro fs fs' hok
    unfold FS.makedirsAux at hok
    cases haux : fs.makedirsAux tl with
    | error e => rw [haux] at hok; cases hok
    | ok fs1 =>
      rw [haux] at hok
      obtain ⟨f1, d1, d2, d3⟩ := ih fs fs1 haux
      obtain ⟨m1, m2, m3, m4⟩ := mkdirOne_ok_spec hok
      have hrev : (h :: tl).reverse = tl.reverse ++ [h] := by simp
      refine ⟨m1.trans f1, fun q hq => m2 q (d1 q hq), ?_, ?_⟩
      · intro q hq hpre
        rw [hrev] at hpre
        rcases prefix_concat_cases hpre with rfl | h3
        · rw [← hrev]; exact m3
        · exact m2 q (d2 q hq h3)
      · intro q hq
        rcases m4 q hq with h3 | rfl
        · rcases d3 q h3 with h4 | ⟨h4, h5⟩
          · exact Or.inl h4
          · exact Or.inr ⟨h4, h5.trans (by rw [hrev]; exact ⟨[h], rfl⟩)⟩
        · refine Or.inr ⟨by simp, by exact List.prefix_refl _⟩

theorem makedirsAux_wf :
    ∀ (rev : List String) (fs fs' : FS), fs.Wf → fs.makedirsAux rev = .ok fs' → fs'.Wf := by
  intro rev
  induction rev with
  | nil => intro fs fs' hwf h; cases h; exact hwf
  | cons h tl ih =>
    intro fs fs' hwf hok
    unfold FS.makedirsAux at hok
    cases haux : fs.makedirsAux tl with
    | error e => rw [haux] at hok; cases hok
    | ok fs1 =>
      rw [haux] at hok
      have hwf1 := ih fs fs1 hwf haux
      obtain ⟨f1, d1, d2, d3⟩ := makedirsAux_ok_spec tl fs fs1 haux
      refine mkdirOne_wf hwf1 hok (by simp) ?_
      intro q hq hqne
      obtain ⟨hqnil, hqpre⟩ := mem_pathPrefixes.mp hq
      have hrev : (h :: tl).reverse = tl.reverse ++ [h] := by simp
      rw [hrev] at hqpre
      rcases prefix_concat_cases hqpre with h3 | h3
      · exact absurd (by rw [h3, hrev]) hqne
      · exact d2 q hqnil h3

theorem makedirs_ok_spec {fs fs' : FS} {p : Path} (h : fs.makedirs p = .ok fs') :
    fs'.files = fs.files ∧
    (∀ q ∈ fs.dirs, q ∈ fs'.dirs) ∧
    (∀ q : Path, q ≠ [] → q <+: p → q ∈ fs'.dirs) ∧
    (∀ q ∈ fs'.dirs, q ∈ fs.dirs ∨ (q ≠ [] ∧ q <+: p)) := by
  have := makedirsAux_ok_spec p.reverse fs fs' h
  rwa [List.reverse_reverse] at this

theorem makedirs_wf {fs fs' : FS} {p : Path} (hwf : fs.Wf)
    (h : fs.makedirs p = .ok fs') : fs'.Wf :=
  makedirsAux_wf p.reverse fs fs' hwf h

theorem makedirs_noop {fs : FS} {p : Path} (hwf : fs.Wf)
    (h : ∀ q : Path, q ≠ [] → q <+: p → q ∈ fs.dirs) : fs.makedirs p = .ok fs := by
  unfold FS.makedirs
  have hgen : ∀ (rev : List String), (∀ q : Path, q ≠ [] → q <+: rev.reverse → q ∈ fs.dirs) →
      fs.makedirsAux rev = .ok fs := by
    intro rev
    induction rev with
    | nil => intro _; rfl
    | cons hd tl ih =>
      intro hpre
      unfold FS.makedirsAux
      have hrev : (hd :: tl).reverse = tl.reverse ++ [hd] := by simp
      have h1 : fs.makedirsAux tl = .ok fs := by
        apply ih
        intro q hq hqp
        exact hpre q hq (by rw [hrev]; exact hqp.trans ⟨[hd], rfl⟩)
      rw [h1]
      have hself : (hd :: tl).reverse ∈ fs.dirs := by
        apply hpre _ (by simp)
        exact List.prefix_refl _
      exact mkdirOne_noop (wf_dir_not_file hwf hself) (isDir_iff.mpr hself)
  apply hgen
  intro q hq hqp
  rw [List.reverse_reverse] at hqp
  exact h q hq hqp

/-! ### `shutil.move` model lemmas (the file-destination case used by both
the organize loop and the undo replay). -/

theorem find?_key_filter (p : Path) (k : Path × FileId → Bool) :
    ∀ l : List (Path × FileId), (∀ q : Path × FileId, q.1 = p → k q = true) →
      (l.filter k).find? (fun q => q.1 == p) = l.find? (fun q => q.1 == p) := by
  intro l
  induction l with
  | nil => intro _; rfl
  | cons a rest ih =>
    intro h
    by_cases hk : k a = true
    · rw [List.filter_cons_of_pos hk]
      by_cases hp : a.1 = p
      · rw [List.find?_cons_of_pos _ (by simpa using hp),
          List.find?_cons_of_pos _ (by simpa using hp)]
      · rw [List.find?_cons_of_neg _ (by simpa using hp),
          List.find?_cons_of_neg _ (by simpa using hp)]
        exact ih h
    · have hp : a.1 ≠ p := fun he => hk (h a he)
      rw [List.filter_cons_of_neg (by simpa using hk),
        List.find?_cons_of_neg _ (by simpa using hp)]
      exact ih h

theorem move_ok_spec {fs : FS} {src dst : Path} {v : FileId}
    (hsrc : fs.getFile src = some v) (hdir : fs.isDir dst = false) :
    ∃ fs2, fs.move src dst = .ok fs2 ∧ fs2.dirs = fs.dirs ∧
      fs2.files = fs.files.filter (fun q => !(q.1 == src) && !(q.1 == dst)) ++ [(dst, v)] ∧
      (∀ p : Path, fs2.getFile p =
        if p = dst then some v else if p = src then none else fs.getFile p) := by
  have hmove : fs.move src dst = .ok { fs with
      files := fs.files.filter (fun q => !(q.1 == src) && !(q.1 == dst)) ++ [(dst, v)] } := by
    simp [FS.move, hsrc, hdir]
  refine ⟨_, hmove, rfl, rfl, ?_⟩
  intro p
  show ((fs.files.filter (fun q => !(q.1 == src) && !(q.1 == dst)) ++ [(dst, v)]).find?
    (fun q => q.1 == p)).map Prod.snd = _
  rw [List.find?_append]
  by_cases hp : p = dst
  · have hnone : (fs.files.filter (fun q => !(q.1 == src) && !(q.1 == dst))).find?
        (fun q => q.1 == p) = none := by
      rw [List.find?_eq_none]
      intro x hx
      have h5 := List.of_mem_filter hx
      simp only [Bool.and_eq_true, Bool.not_eq_true'] at h5
      simp [hp, h5.2]
    rw [hnone, if_pos hp]
    simp [hp]
  · have hlast : ([(dst, v)].find? (fun q => q.1 == p)) = none := by
      rw [List.find?_eq_none]
      intro x hx
      simp only [List.mem_singleton] at hx
      subst hx
      simp [Ne.symm hp]
    rw [hlast, if_neg hp]
    by_cases hs : p = src
    · have hnone : (fs.files.filter (fun q => !(q.1 == src) && !(q.1 == dst))).find?
          (fun q => q.1 == p) = none := by
        rw [List.find?_eq_none]
        intro x hx
        have h5 := List.of_mem_filter hx
        simp only [Bool.and_eq_true, Bool.not_eq_true'] at h5
        simp [hs, h5.1]
      rw [hnone, if_pos hs]
      simp
    · have hside : ∀ q : Path × FileId, q.1 = p → (!(q.1 == src) && !(q.1 == dst)) = true := by
        intro q hq
        rw [hq]
        simp [hs, hp]
      rw [find?_key_filter p _ fs.files hside, if_neg hs]
      show ((fs.files.find? (fun q => q.1 == p)).or none).map Prod.snd = fs.getFile p
      rw [Option.or_none]
      rfl

theorem move_wf {fs fs2 : FS} {src dst : Path} {v : FileId} (hwf : fs.Wf)
    (hdirs : fs2.dirs = fs.dirs)
    (hfiles : fs2.files = fs.files.filter (fun q => !(q.1 == src) && !(q.1 == dst)) ++ [(dst, v)])
    (hdst : dst ∉ fs.dirs) (hne : dst ≠ [])
    (hpre : ∀ q ∈ pathPrefixes dst, q ≠ dst → q ∈ fs.dirs) : fs2.Wf := by
  obtain ⟨w1, w2, w3, w4, w5, w6⟩ := hwf
  have hsubpaths : ∀ p ∈ fs2.filePaths, p = dst ∨ p ∈ fs.filePaths := by
    intro p hp
    rw [FS.filePaths, hfiles, List.map_append, List.mem_append] at hp
    rcases hp with h | h
    · right
      obtain ⟨q, hq, rfl⟩ := List.mem_map.mp h
      exact List.mem_map_of_mem _ (List.mem_of_mem_filter hq)
    · left
      simpa using h
  refine ⟨?_, by rw [hdirs]; exact w2, ?_, ?_, ?_, ?_⟩
  · rw [FS.filePaths, hfiles, List.map_append]
    rw [List.nodup_append]
    refine ⟨?_, by simp, ?_⟩
    · exact List.Nodup.sublist (List.Sublist.map _ (List.filter_sublist _)) w1
    · intro a ha hb
      have hb2 : a = dst := by simpa using hb
      subst hb2
      obtain ⟨q, hq, rfl⟩ := List.mem_map.mp ha
      have := List.of_mem_filter hq
      simp only [Bool.and_eq_true, Bool.not_eq_true'] at this
      simpa using this.2
  · intro p hp
    rcases hsubpaths p hp with rfl | h
    · rw [hdirs]; exact hdst
    · rw [hdirs]; exact w3 p h
  · intro p hp
    rcases hsubpaths p hp with rfl | h
    · exact hne
    · exact w4 p h
  · intro p hp q hq hqp
    rcases hsubpaths p hp with rfl | h
    · rw [hdirs]; exact hpre q hq hqp
    · rw [hdirs]; exact w5 p h q hq hqp
  · intro p hp q hq hqp
    rw [hdirs] at hp ⊢
    exact w6 p hp q hq hqp

theorem key_filter_perm :
    ∀ (l : List (Path × FileId)) (src : Path) (v : FileId),
      (l.map Prod.fst).Nodup → (src, v) ∈ l →
      l.Perm ((src, v) :: l.filter (fun q => !(q.1 == src))) := by
  intro l
  induction l with
  | nil => intro src v _ h; cases h
  | cons a rest ih =>
    intro src v hnd hmem
    rw [List.map_cons] at hnd
    have hhead : a.1 ∉ rest.map Prod.fst := (List.nodup_cons.mp hnd).1
    have hnd2 : (rest.map Prod.fst).Nodup := (List.nodup_cons.mp hnd).2
    rcases List.mem_cons.mp hmem with heq | hmem2
    · rw [← heq]
      rw [List.filter_cons_of_neg (by simp)]
      have hrest : rest.filter (fun q => !(q.1 == src)) = rest := by
        rw [List.filter_eq_self]
        intro q hq
        have hne : q.1 ≠ src := by
          intro he
          apply hhead
          rw [← heq]
          show src ∈ rest.map Prod.fst
          rw [← he]
          exact List.mem_map_of_mem Prod.fst hq
        simpa using hne
      rw [hrest]
    · have hne : a.1 ≠ src := by
        intro he
        apply hhead
        rw [he]
        exact List.mem_map_of_mem Prod.fst hmem2
      rw [List.filter_cons_of_pos (by simpa using hne)]
      have h1 := ih src v hnd2 hmem2
      exact (h1.cons a).trans (List.Perm.swap (src, v) a _)

theorem move_snd_perm {fs fs2 : FS} {src dst : Path} {v : FileId}
    (hnd : fs.filePaths.Nodup) (hsrc : fs.getFile src = some v)
    (hfresh : dst ∉ fs.filePaths)
    (hfiles : fs2.files = fs.files.filter (fun q => !(q.1 == src) && !(q.1 == dst)) ++ [(dst, v)]) :
    (fs2.files.map Prod.snd).Perm (fs.files.map Prod.snd) := by
  have hq : ∃ q : Path × FileId, fs.files.find? (fun q => q.1 == src) = some q ∧ q.2 = v := by
    unfold FS.getFile at hsrc
    cases hf : fs.files.find? (fun q => q.1 == src) with
    | none => rw [hf] at hsrc; cases hsrc
    | some q => rw [hf] at hsrc; exact ⟨q, rfl, by simpa using hsrc⟩
  obtain ⟨q, hfind, hv⟩ := hq
  have hkey : q.1 = src := by simpa using List.find?_some hfind
  have hmem : (src, v) ∈ fs.files := by
    have h1 := List.mem_of_find?_eq_some hfind
    have h2 : q = (src, v) := Prod.ext hkey hv
    rwa [h2] at h1
  have hfilter : fs.files.filter (fun q => !(q.1 == src) && !(q.1 == dst))
      = fs.files.filter (fun q => !(q.1 == src)) := by
    apply List.filter_congr
    intro q2 hq2
    have hne : q2.1 ≠ dst := by
      intro he
      exact hfresh (he ▸ List.mem_map_of_mem Prod.fst hq2)
    simp [hne]
  have hnd2 : (fs.files.map Prod.fst).Nodup := hnd
  have hperm := key_filter_perm fs.files src v hnd2 hmem
  have h2 := hperm.map Prod.snd
  simp only [List.map_cons] at h2
  rw [hfiles, hfilter, List.map_append]
  have h3 : ((fs.files.filter (fun q => !(q.1 == src))).map Prod.snd
      ++ ([(dst, v)].map Prod.snd)).Perm
      (v :: (fs.files.filter (fun q => !(q.1 == src))).map Prod.snd) := by
    simp only [List.map_cons, List.map_nil]
    exact List.perm_append_singleton _ _
  exact h3.trans h2.symm

/-! ### Directory listing and category resolution. -/

theorem mem_listFiles {fs : FS} {d : Path} {f : String} :
    f ∈ fs.listFiles d ↔ (d ++ [f]) ∈ fs.filePaths := by
  constructor
  · intro h
    obtain ⟨q, hq, hcond⟩ := List.mem_filterMap.mp h
    by_cases hc : isChildOf q.1 d = true
    · rw [if_pos hc] at hcond
      obtain ⟨hne, hdl⟩ := isChildOf_iff.mp hc
      have hlast : q.1.getLast hne = f := by
        have := List.getLast?_eq_getLast q.1 hne
        rw [this] at hcond
        simpa using hcond
      have hq1 : q.1 = d ++ [f] := by
        rw [← hdl, ← hlast]
        exact (List.dropLast_append_getLast hne).symm
      rw [← hq1]
      exact List.mem_map_of_mem Prod.fst hq
    · rw [if_neg hc] at hcond
      cases hcond
  · intro h
    obtain ⟨q, hq, hq1⟩ := List.mem_map.mp h
    apply List.mem_filterMap.mpr
    refine ⟨q, hq, ?_⟩
    have hc : isChildOf q.1 d = true := by
      rw [isChildOf_iff, hq1]
      exact ⟨by simp, by simp⟩
    rw [if_pos hc, hq1]
    simp

theorem listFiles_nodup {fs : FS} (hnd : fs.filePaths.Nodup) (d : Path) :
    (fs.listFiles d).Nodup := by
  have hnd2 : (fs.files.map Prod.fst).Nodup := hnd
  unfold FS.listFiles
  revert hnd2
  generalize fs.files = l
  induction l with
  | nil => intro _; exact List.nodup_nil
  | cons a rest ih =>
    intro hnd2
    rw [List.map_cons, List.nodup_cons] at hnd2
    rw [List.filterMap_cons]
    by_cases hc : isChildOf a.1 d = true
    · rw [if_pos hc]
      cases hl : a.1.getLast? with
      | none => exact ih hnd2.2
      | some f =>
        rw [List.nodup_cons]
        refine ⟨?_, ih hnd2.2⟩
        intro hf
        obtain ⟨q, hq, hcond⟩ := List.mem_filterMap.mp hf
        by_cases hc2 : isChildOf q.1 d = true
        · rw [if_pos hc2] at hcond
          obtain ⟨hne, hdl⟩ := isChildOf_iff.mp hc
          obtain ⟨hne2, hdl2⟩ := isChildOf_iff.mp hc2
          have h1 : a.1 = d ++ [f] := by
            have hg : a.1.getLast hne = f := by
              have := List.getLast?_eq_getLast a.1 hne
              rw [this] at hl
              simpa using hl
            rw [← hdl, ← hg]
            exact (List.dropLast_append_getLast hne).symm
          have h2 : q.1 = d ++ [f] := by
            have hg2 : q.1.getLast hne2 = f := by
              have := List.getLast?_eq_getLast q.1 hne2
              rw [this] at hcond
              simpa using hcond
            rw [← hdl2, ← hg2]
            exact (List.dropLast_append_getLast hne2).symm
          apply hnd2.1
          rw [show a.1 = q.1 from by rw [h1, h2]]
          exact List.mem_map_of_mem Prod.fst hq
        · rw [if_neg hc2] at hcond
          cases hcond
    · rw [if_neg hc]
      exact ih hnd2.2

theorem listFiles_files_eq {fs fs2 : FS} (h : fs2.files = fs.files) (d : Path) :
    fs2.listFiles d = fs.listFiles d := by
  unfold FS.listFiles
  rw [h]

theorem getCategoryAux_eq (ext : String) :
    ∀ l : List (String × List String),
      getCategoryAux ext l =
        ((l.find? (fun p => p.2.contains (strLower ext))).map Prod.fst).getD (r"others") := by
  intro l
  induction l with
  | nil => rfl
  | cons a rest ih =>
    unfold getCategoryAux
    by_cases hc : a.2.contains (strLower ext) = true
    · rw [if_pos hc]
      have hfind : List.find? (fun p => p.2.contains (strLower ext)) (a :: rest) = some a := by
        apply List.find?_cons_of_pos
        exact hc
      rw [hfind]
      rfl
    · rw [if_neg hc]
      have hfind : List.find? (fun p => p.2.contains (strLower ext)) (a :: rest)
          = List.find? (fun p => p.2.contains (strLower ext)) rest := by
        apply List.find?_cons_of_neg
        exact hc
      rw [hfind]
      exact ih


/-! ### The cleanup phase: removing empty folders below the target. -/

theorem prefix_ne_length_lt {q p : Path} (h : q <+: p) (hne : q ≠ p) :
    q.length < p.length := by
  have h1 := h.length_le
  rcases Nat.lt_or_ge q.length p.length with h2 | h2
  · exact h2
  · exfalso
    apply hne
    have h3 : q.length = p.length := by omega
    have h4 := List.prefix_iff_eq_take.mp h
    rw [h3, List.take_length] at h4
    exact h4

theorem isEmptyDir_eq_true {fs : FS} {d : Path} :
    fs.isEmptyDir d = true ↔
      (∀ q ∈ fs.files, isChildOf q.1 d = false) ∧ (∀ q ∈ fs.dirs, isChildOf q d = false) := by
  unfold FS.isEmptyDir
  rw [Bool.not_eq_true']
  rw [Bool.or_eq_false_iff]
  constructor
  · rintro ⟨h1, h2⟩
    constructor
    · intro q hq
      rw [List.any_eq_false] at h1
      simpa using h1 q hq
    · intro q hq
      rw [List.any_eq_false] at h2
      simpa using h2 q hq
  · rintro ⟨h1, h2⟩
    constructor
    · rw [List.any_eq_false]
      intro q hq
      simp [h1 q hq]
    · rw [List.any_eq_false]
      intro q hq
      simp [h2 q hq]

theorem isEmptyDir_eq_false_of_file_child {fs : FS} {d q : Path}
    (hq : q ∈ fs.filePaths) (hc : isChildOf q d = true) : fs.isEmptyDir d = false := by
  cases he : fs.isEmptyDir d
  · rfl
  · obtain ⟨h1, _⟩ := isEmptyDir_eq_true.mp he
    obtain ⟨x, hx, rfl⟩ := List.mem_map.mp hq
    rw [h1 x hx] at hc
    cases hc

theorem isEmptyDir_eq_false_of_dir_child {fs : FS} {d q : Path}
    (hq : q ∈ fs.dirs) (hc : isChildOf q d = true) : fs.isEmptyDir d = false := by
  cases he : fs.isEmptyDir d
  · rfl
  · obtain ⟨_, h2⟩ := isEmptyDir_eq_true.mp he
    rw [h2 q hq] at hc
    cases hc

theorem isEmptyDir_mono {fs fs2 : FS} {d : Path}
    (hf : ∀ q ∈ fs2.files, q ∈ fs.files) (hd : ∀ q ∈ fs2.dirs, q ∈ fs.dirs)
    (h : fs.isEmptyDir d = true) : fs2.isEmptyDir d = true := by
  obtain ⟨h1, h2⟩ := isEmptyDir_eq_true.mp h
  exact isEmptyDir_eq_true.mpr ⟨fun q hq => h1 q (hf q hq), fun q hq => h2 q (hd q hq)⟩

theorem not_empty_of_hasFileBelow {fs : FS} {d : Path} (hwf : fs.Wf)
    (hb : fs.hasFileBelow d) : fs.isEmptyDir d = false := by
  obtain ⟨f, hf, hpre, hne⟩ := hb
  obtain ⟨hc, hrp⟩ := child_step hpre hne
  by_cases he : f.take (d.length + 1) = f
  · refine isEmptyDir_eq_false_of_file_child ?_ hc
    rw [he]
    exact hf
  · have hmem : f.take (d.length + 1) ∈ fs.dirs := by
      apply hwf.2.2.2.2.1 f hf
      · rw [mem_pathPrefixes]
        exact ⟨(isChildOf_iff.mp hc).1, hrp⟩
      · exact he
    exact isEmptyDir_eq_false_of_dir_child hmem hc

theorem hasFileBelow_congr_files {fs fs2 : FS} {q : Path} (h : fs2.files = fs.files) :
    fs2.hasFileBelow q ↔ fs.hasFileBelow q := by
  unfold FS.hasFileBelow FS.filePaths
  rw [h]

theorem rmdirIfEmpty_files (fs : FS) (d : Path) : (fs.rmdirIfEmpty d).files = fs.files := by
  unfold FS.rmdirIfEmpty
  split <;> rfl

theorem rmdirIfEmpty_dirs_subset {fs : FS} {d : Path} :
    ∀ q ∈ (fs.rmdirIfEmpty d).dirs, q ∈ fs.dirs := by
  intro q hq
  unfold FS.rmdirIfEmpty at hq
  split at hq
  · exact List.mem_of_mem_filter hq
  · exact hq

theorem rmdirIfEmpty_keeps {fs : FS} {d q : Path} (h : q ∈ fs.dirs) (hne : q ≠ d) :
    q ∈ (fs.rmdirIfEmpty d).dirs := by
  unfold FS.rmdirIfEmpty
  split
  · exact List.mem_filter_of_mem h (by simpa using hne)
  · exact h

theorem rmdirIfEmpty_removes {fs : FS} {d : Path} (h : fs.isEmptyDir d = true) :
    d ∉ (fs.rmdirIfEmpty d).dirs := by
  unfold FS.rmdirIfEmpty
  by_cases hd : fs.isDir d = true
  · rw [hd, h]
    simp only [Bool.and_self, if_true]
    intro hmem
    have := List.of_mem_filter hmem
    simp at this
  · rw [Bool.not_eq_true] at hd
    rw [hd]
    simp only [Bool.false_and, if_false]
    exact isDir_eq_false_iff.mp hd

theorem rmdirIfEmpty_wf {fs : FS} {d : Path} (hwf : fs.Wf) : (fs.rmdirIfEmpty d).Wf := by
  unfold FS.rmdirIfEmpty
  split
  · next hcond =>
    have hempty : fs.isEmptyDir d = true := (Bool.and_eq_true_iff.mp hcond).2
    have hnobelow : ∀ p : Path, d <+: p → d ≠ p → p ∉ fs.filePaths ∧ p ∉ fs.dirs := by
      intro p hpre hne
      obtain ⟨hc, hrp⟩ := child_step hpre hne
      constructor
      · intro hp
        by_cases he : p.take (d.length + 1) = p
        · have hp2 : p.take (d.length + 1) ∈ fs.filePaths := by rw [he]; exact hp
          rw [isEmptyDir_eq_false_of_file_child hp2 hc] at hempty
          cases hempty
        · have hmem : p.take (d.length + 1) ∈ fs.dirs := by
            apply hwf.2.2.2.2.1 p hp
            · rw [mem_pathPrefixes]
              exact ⟨(isChildOf_iff.mp hc).1, hrp⟩
            · exact he
          rw [isEmptyDir_eq_false_of_dir_child hmem hc] at hempty
          cases hempty
      · intro hp
        by_cases he : p.take (d.length + 1) = p
        · have hp2 : p.take (d.length + 1) ∈ fs.dirs := by rw [he]; exact hp
          rw [isEmptyDir_eq_false_of_dir_child hp2 hc] at hempty
          cases hempty
        · have hmem : p.take (d.length + 1) ∈ fs.dirs := by
            apply hwf.2.2.2.2.2 p hp
            · rw [mem_pathPrefixes]
              exact ⟨(isChildOf_iff.mp hc).1, hrp⟩
            · exact he
          rw [isEmptyDir_eq_false_of_dir_child hmem hc] at hempty
          cases hempty
    obtain ⟨w1, w2, w3, w4, w5, w6⟩ := hwf
    refine ⟨w1, List.Nodup.filter _ w2, ?_, w4, ?_, ?_⟩
    · intro p hp hmem
      exact w3 p hp (List.mem_of_mem_filter hmem)
    · intro p hp q hq hqp
      have hq2 := w5 p hp q hq hqp
      apply List.mem_filter_of_mem hq2
      obtain ⟨hqnil, hqpre⟩ := mem_pathPrefixes.mp hq
      by_cases hqd : q = d
      · exfalso
        exact (hnobelow p (hqd ▸ hqpre) (by rw [← hqd]; exact hqp)).1 hp
      · simpa using hqd
    · intro p hp q hq hqp
      have hp2 := List.mem_of_mem_filter hp
      have hq2 := w6 p hp2 q hq hqp
      apply List.mem_filter_of_mem hq2
      obtain ⟨hqnil, hqpre⟩ := mem_pathPrefixes.mp hq
      by_cases hqd : q = d
      · exfalso
        exact (hnobelow p (hqd ▸ hqpre) (by rw [← hqd]; exact hqp)).2 hp2
      · simpa using hqd
  · exact hwf

theorem rmdirIfEmpty_keeps_hasFileBelow {fs : FS} {d q : Path} (hwf : fs.Wf)
    (hq : q ∈ fs.dirs) (hb : fs.hasFileBelow q) : q ∈ (fs.rmdirIfEmpty d).dirs := by
  by_cases hqd : q = d
  · subst hqd
    have := not_empty_of_hasFileBelow hwf hb
    unfold FS.rmdirIfEmpty
    rw [this]
    simp only [Bool.and_false, if_false]
    exact hq
  · exact rmdirIfEmpty_keeps hq hqd

theorem foldl_rmdir_files : ∀ (l : List Path) (fs : FS),
    (l.foldl FS.rmdirIfEmpty fs).files = fs.files := by
  intro l
  induction l with
  | nil => intro fs; rfl
  | cons a rest ih =>
    intro fs
    rw [List.foldl_cons, ih, rmdirIfEmpty_files]

theorem foldl_rmdir_dirs_subset : ∀ (l : List Path) (fs : FS),
    ∀ q ∈ (l.foldl FS.rmdirIfEmpty fs).dirs, q ∈ fs.dirs := by
  intro l
  induction l with
  | nil => intro fs q hq; exact hq
  | cons a rest ih =>
    intro fs q hq
    exact rmdirIfEmpty_dirs_subset q (ih (fs.rmdirIfEmpty a) q hq)

theorem foldl_rmdir_out_stays : ∀ (l : List Path) (fs : FS) (q : Path),
    q ∉ fs.dirs → q ∉ (l.foldl FS.rmdirIfEmpty fs).dirs := by
  intro l fs q hq hmem
  exact hq (foldl_rmdir_dirs_subset l fs q hmem)

theorem foldl_rmdir_keeps_not_mem : ∀ (l : List Path) (fs : FS) (q : Path),
    q ∈ fs.dirs → q ∉ l → q ∈ (l.foldl FS.rmdirIfEmpty fs).dirs := by
  intro l
  induction l with
  | nil => intro fs q hq _; exact hq
  | cons a rest ih =>
    intro fs q hq hnl
    rw [List.foldl_cons]
    apply ih
    · exact rmdirIfEmpty_keeps hq (fun he => hnl (he ▸ List.mem_cons_self a rest))
    · exact fun hr => hnl (List.mem_cons_of_mem a hr)

theorem foldl_rmdir_wf : ∀ (l : List Path) (fs : FS), fs.Wf → (l.foldl FS.rmdirIfEmpty fs).Wf := by
  intro l
  induction l with
  | nil => intro fs h; exact h
  | cons a rest ih =>
    intro fs h
    exact ih _ (rmdirIfEmpty_wf h)

theorem foldl_rmdir_keeps_hasFileBelow : ∀ (l : List Path) (fs : FS) (q : Path),
    fs.Wf → q ∈ fs.dirs → fs.hasFileBelow q → q ∈ (l.foldl FS.rmdirIfEmpty fs).dirs := by
  intro l
  induction l with
  | nil => intro fs q _ hq _; exact hq
  | cons a rest ih =>
    intro fs q hwf hq hb
    rw [List.foldl_cons]
    apply ih
    · exact rmdirIfEmpty_wf hwf
    · exact rmdirIfEmpty_keeps_hasFileBelow hwf hq hb
    · exact (hasFileBelow_congr_files (rmdirIfEmpty_files fs a)).mpr hb

theorem foldl_rmdir_removes : ∀ (l : List Path) (fs : FS) (d : Path),
    d ∈ l → fs.isEmptyDir d = true → d ∉ (l.foldl FS.rmdirIfEmpty fs).dirs := by
  intro l
  induction l with
  | nil => intro fs d h _; cases h
  | cons a rest ih =>
    intro fs d hd hempty
    rw [List.foldl_cons]
    rcases List.mem_cons.mp hd with rfl | hd2
    · apply foldl_rmdir_out_stays
      exact rmdirIfEmpty_removes hempty
    · apply ih (fs.rmdirIfEmpty a) d hd2
      apply isEmptyDir_mono ?_ rmdirIfEmpty_dirs_subset hempty
      intro q hq
      rwa [rmdirIfEmpty_files] at hq

theorem mem_cleanupCands {fs : FS} {target d : Path} :
    d ∈ cleanupCands fs target ↔ d ∈ fs.dirs ∧ target <+: d ∧ d ≠ target := by
  unfold cleanupCands
  rw [List.mem_filter]
  constructor
  · rintro ⟨h1, h2⟩
    simp only [Bool.and_eq_true, decide_eq_true_eq, bne_iff_ne] at h2
    refine ⟨h1, h2.1, ?_⟩
    have := h2.2
    simpa using this
  · rintro ⟨h1, h2, h3⟩
    refine ⟨h1, ?_⟩
    simp only [Bool.and_eq_true, decide_eq_true_eq]
    exact ⟨h2, by simpa using h3⟩

theorem cleanupGroup_files (fs : FS) (cands : List Path) (n : Nat) :
    (fs.cleanupGroup cands n).files = fs.files :=
  foldl_rmdir_files _ _

theorem cleanupGroup_dirs_subset {fs : FS} {cands : List Path} {n : Nat} :
    ∀ q ∈ (fs.cleanupGroup cands n).dirs, q ∈ fs.dirs :=
  foldl_rmdir_dirs_subset _ _

theorem cleanupGroup_wf {fs : FS} {cands : List Path} {n : Nat} (h : fs.Wf) :
    (fs.cleanupGroup cands n).Wf :=
  foldl_rmdir_wf _ _ h

theorem cleanupGroup_keeps_not_cand {fs : FS} {cands : List Path} {n : Nat} {q : Path}
    (hq : q ∈ fs.dirs) (hnc : q ∉ cands) : q ∈ (fs.cleanupGroup cands n).dirs :=
  foldl_rmdir_keeps_not_mem _ _ _ hq (fun h => hnc (List.mem_of_mem_filter h))

theorem cleanupGroup_keeps_hasFileBelow {fs : FS} {cands : List Path} {n : Nat} {q : Path}
    (hwf : fs.Wf) (hq : q ∈ fs.dirs) (hb : fs.hasFileBelow q) :
    q ∈ (fs.cleanupGroup cands n).dirs :=
  foldl_rmdir_keeps_hasFileBelow _ _ _ hwf hq hb

theorem cleanupGroup_out_stays {fs : FS} {cands : List Path} {n : Nat} {q : Path}
    (hq : q ∉ fs.dirs) : q ∉ (fs.cleanupGroup cands n).dirs :=
  foldl_rmdir_out_stays _ _ _ hq

theorem cleanupFrom_files : ∀ (n : Nat) (fs : FS) (cands : List Path),
    (fs.cleanupFrom cands n).files = fs.files := by
  intro n
  induction n with
  | zero => intro fs cands; exact cleanupGroup_files fs cands 0
  | succ m ih =>
    intro fs cands
    show ((fs.cleanupGroup cands (m + 1)).cleanupFrom cands m).files = fs.files
    rw [ih, cleanupGroup_files]

theorem cleanupFrom_dirs_subset : ∀ (n : Nat) (fs : FS) (cands : List Path),
    ∀ q ∈ (fs.cleanupFrom cands n).dirs, q ∈ fs.dirs := by
  intro n
  induction n with
  | zero => intro fs cands q hq; exact cleanupGroup_dirs_subset q hq
  | succ m ih =>
    intro fs cands q hq
    exact cleanupGroup_dirs_subset q (ih _ _ q hq)

theorem cleanupFrom_wf : ∀ (n : Nat) (fs : FS) (cands : List Path),
    fs.Wf → (fs.cleanupFrom cands n).Wf := by
  intro n
  induction n with
  | zero => intro fs cands h; exact cleanupGroup_wf h
  | succ m ih =>
    intro fs cands h
    exact ih _ _ (cleanupGroup_wf h)

theorem cleanupFrom_keeps_not_cand : ∀ (n : Nat) (fs : FS) (cands : List Path) (q : Path),
    q ∈ fs.dirs → q ∉ cands → q ∈ (fs.cleanupFrom cands n).dirs := by
  intro n
  induction n with
  | zero => intro fs cands q hq hnc; exact cleanupGroup_keeps_not_cand hq hnc
  | succ m ih =>
    intro fs cands q hq hnc
    exact ih _ _ q (cleanupGroup_keeps_not_cand hq hnc) hnc

theorem cleanupFrom_keeps_hasFileBelow : ∀ (n : Nat) (fs : FS) (cands : List Path) (q : Path),
    fs.Wf → q ∈ fs.dirs → fs.hasFileBelow q → q ∈ (fs.cleanupFrom cands n).dirs := by
  intro n
  induction n with
  | zero => intro fs cands q hwf hq hb; exact cleanupGroup_keeps_hasFileBelow hwf hq hb
  | succ m ih =>
    intro fs cands q hwf hq hb
    apply ih _ _ q (cleanupGroup_wf hwf) (cleanupGroup_keeps_hasFileBelow hwf hq hb)
    exact (hasFileBelow_congr_files (cleanupGroup_files fs cands (m + 1))).mpr hb

theorem cleanupFrom_out_stays : ∀ (n : Nat) (fs : FS) (cands : List Path) (q : Path),
    q ∉ fs.dirs → q ∉ (fs.cleanupFrom cands n).dirs := by
  intro n fs cands q hq hmem
  exact hq (cleanupFrom_dirs_subset n fs cands q hmem)

theorem cleanupFrom_removes_fileless (fs0 : FS) (target : Path) (cands : List Path)
    (hcands : ∀ d : Path, d ∈ cands ↔ d ∈ fs0.dirs ∧ target <+: d ∧ d ≠ target) :
    ∀ (n : Nat) (fs : FS), fs.Wf → fs.files = fs0.files → (∀ q ∈ fs.dirs, q ∈ fs0.dirs) →
      (∀ d ∈ cands, n < d.length → ¬ fs0.hasFileBelow d → d ∉ fs.dirs) →
      ∀ d ∈ cands, ¬ fs0.hasFileBelow d → d ∉ (fs.cleanupFrom cands n).dirs := by
  have key : ∀ (n : Nat) (fs : FS), fs.Wf → fs.files = fs0.files →
      (∀ q ∈ fs.dirs, q ∈ fs0.dirs) →
      (∀ d ∈ cands, n < d.length → ¬ fs0.hasFileBelow d → d ∉ fs.dirs) →
      ∀ d ∈ cands, n ≤ d.length → ¬ fs0.hasFileBelow d →
        d ∉ (fs.cleanupGroup cands n).dirs := by
    intro n fs hwf hfiles hsub hlev d hd hdlen hfb
    rcases Nat.lt_or_ge n d.length with hlt | hge
    · exact cleanupGroup_out_stays (hlev d hd hlt hfb)
    · have hlen : d.length = n := by omega
      have hempty : fs.isEmptyDir d = true := by
        rw [isEmptyDir_eq_true]
        constructor
        · intro q hq
          cases hc : isChildOf q.1 d
          · rfl
          · exfalso
            apply hfb
            obtain ⟨hpre, hne⟩ := isChildOf_prefix hc
            refine ⟨q.1, ?_, hpre, hne⟩
            have : q ∈ fs0.files := by rw [← hfiles]; exact hq
            exact List.mem_map_of_mem Prod.fst this
        · intro c hc
          cases hcc : isChildOf c d
          · rfl
          · exfalso
            obtain ⟨hpre, hne⟩ := isChildOf_prefix hcc
            obtain ⟨hcnil, hcdl⟩ := isChildOf_iff.mp hcc
            have hclen : c.length = d.length + 1 := by
              have := congrArg List.length hcdl
              rw [List.length_dropLast] at this
              have hp2 : 0 < c.length := List.length_pos.mpr hcnil
              omega
            obtain ⟨hd1, hd2, hd3⟩ := (hcands d).mp hd
            have hcmem : c ∈ cands := by
              rw [hcands c]
              refine ⟨hsub c hc, hd2.trans hpre, ?_⟩
              intro he
              have := prefix_ne_length_lt hd2 (Ne.symm hd3)
              rw [← he] at this
              omega
            have hcfb : ¬ fs0.hasFileBelow c := by
              intro hb
              apply hfb
              obtain ⟨f, hf, hfp, hfn⟩ := hb
              refine ⟨f, hf, hpre.trans hfp, ?_⟩
              intro he
              have h1 := prefix_ne_length_lt hfp hfn
              rw [← he] at h1
              omega
            exact hlev c hcmem (by omega) hcfb hc
      apply foldl_rmdir_removes
      · rw [List.mem_filter]
        exact ⟨hd, by simp [hlen]⟩
      · exact hempty
  intro n
  induction n with
  | zero =>
    intro fs hwf hfiles hsub hlev d hd hfb
    apply key 0 fs hwf hfiles hsub hlev d hd (Nat.zero_le _) hfb
  | succ m ih =>
    intro fs hwf hfiles hsub hlev d hd hfb
    show d ∉ ((fs.cleanupGroup cands (m + 1)).cleanupFrom cands m).dirs
    apply ih (fs.cleanupGroup cands (m + 1)) (cleanupGroup_wf hwf)
      (by rw [cleanupGroup_files]; exact hfiles)
      (fun q hq => hsub q (cleanupGroup_dirs_subset q hq))
      ?_ d hd hfb
    intro c hc hclen hcfb
    rcases Nat.lt_or_ge (m + 1) c.length with hlt | hge
    · exact cleanupGroup_out_stays (hlev c hc hlt hcfb)
    · have : c.length = m + 1 := by omega
      exact key (m + 1) fs hwf hfiles hsub hlev c hc (by omega) hcfb

theorem le_foldr_max : ∀ (l : List Path) (d : Path), d ∈ l →
    d.length ≤ l.foldr (fun d m => max d.length m) 0 := by
  intro l
  induction l with
  | nil => intro d h; cases h
  | cons a rest ih =>
    intro d h
    rcases List.mem_cons.mp h with rfl | h2
    · exact Nat.le_max_left _ _
    · exact Nat.le_trans (ih d h2) (Nat.le_max_right _ _)

theorem cleanupBelow_files (fs : FS) (target : Path) :
    (fs.cleanupBelow target).files = fs.files :=
  cleanupFrom_files _ _ _

theorem cleanupBelow_wf {fs : FS} {target : Path} (hwf : fs.Wf) :
    (fs.cleanupBelow target).Wf :=
  cleanupFrom_wf _ _ _ hwf

theorem cleanupBelow_dirs_subset {fs : FS} {target : Path} :
    ∀ q ∈ (fs.cleanupBelow target).dirs, q ∈ fs.dirs :=
  cleanupFrom_dirs_subset _ _ _

theorem cleanupBelow_keeps_outside {fs : FS} {target q : Path}
    (hq : q ∈ fs.dirs) (h : ¬(target <+: q ∧ q ≠ target)) :
    q ∈ (fs.cleanupBelow target).dirs := by
  apply cleanupFrom_keeps_not_cand _ _ _ _ hq
  intro hc
  obtain ⟨_, h2, h3⟩ := mem_cleanupCands.mp hc
  exact h ⟨h2, h3⟩

theorem cleanupBelow_keeps_hasFileBelow {fs : FS} {target q : Path} (hwf : fs.Wf)
    (hq : q ∈ fs.dirs) (hb : fs.hasFileBelow q) :
    q ∈ (fs.cleanupBelow target).dirs :=
  cleanupFrom_keeps_hasFileBelow _ _ _ _ hwf hq hb

theorem cleanupBelow_removes_fileless {fs : FS} {target d : Path} (hwf : fs.Wf)
    (hd : d ∈ fs.dirs) (h2 : target <+: d) (h3 : d ≠ target)
    (hfb : ¬ fs.hasFileBelow d) : d ∉ (fs.cleanupBelow target).dirs := by
  apply cleanupFrom_removes_fileless fs target (cleanupCands fs target)
    (fun d => mem_cleanupCands) _ fs hwf rfl (fun q hq => hq) ?_
    d (mem_cleanupCands.mpr ⟨hd, h2, h3⟩) hfb
  intro c hc hclen hcfb
  obtain ⟨hc1, _, _⟩ := mem_cleanupCands.mp hc
  exfalso
  have := le_foldr_max _ c hc
  omega

theorem cleanupBelow_no_empty_below {fs : FS} {target : Path} (hwf : fs.Wf) :
    ∀ d ∈ (fs.cleanupBelow target).dirs, target <+: d → d ≠ target →
      (fs.cleanupBelow target).isEmptyDir d = false := by
  intro d hd hpre hne
  have hd0 : d ∈ fs.dirs := cleanupBelow_dirs_subset d hd
  have hfb : fs.hasFileBelow d := by
    by_contra hfb
    exact cleanupBelow_removes_fileless hwf hd0 hpre hne hfb hd
  obtain ⟨f, hf, hfp, hfn⟩ := hfb
  obtain ⟨hc, hrp⟩ := child_step hfp hfn
  by_cases he : f.take (d.length + 1) = f
  · apply isEmptyDir_eq_false_of_file_child ?_ hc
    show f.take (d.length + 1) ∈ (fs.cleanupBelow target).filePaths
    unfold FS.filePaths
    rw [cleanupBelow_files, he]
    exact hf
  · have hmem : f.take (d.length + 1) ∈ fs.dirs := by
      apply hwf.2.2.2.2.1 f hf
      · rw [mem_pathPrefixes]
        exact ⟨(isChildOf_iff.mp hc).1, hrp⟩
      · exact he
    have hkept : f.take (d.length + 1) ∈ (fs.cleanupBelow target).dirs := by
      apply cleanupBelow_keeps_hasFileBelow hwf hmem
      refine ⟨f, hf, hrp, he⟩
    exact isEmptyDir_eq_false_of_dir_child hkept hc

/-! ### Undo replay and organize loop: structural lemmas. -/

theorem undoStep_skip {fs : FS} {r : MoveRecord}
    (h : fs.existsPath r.destination = false) : undoStep fs r = .ok fs := by
  unfold undoStep
  rw [h]
  rfl

theorem undoReplay_nil (fs : FS) : undoReplay fs [] = .ok fs := rfl

theorem undoReplay_cons (fs : FS) (r : MoveRecord) (rest : List MoveRecord) :
    undoReplay fs (r :: rest) =
      match undoStep fs r with
      | .error e => .error e
      | .ok fs1 => undoReplay fs1 rest := rfl

theorem undoReplay_append : ∀ (l1 l2 : List MoveRecord) (fs : FS),
    undoReplay fs (l1 ++ l2) =
      match undoReplay fs l1 with
      | .ok fs1 => undoReplay fs1 l2
      | .error e => .error e := by
  intro l1
  induction l1 with
  | nil => intro l2 fs; rfl
  | cons r rest ih =>
    intro l2 fs
    rw [List.cons_append, undoReplay_cons, undoReplay_cons]
    cases undoStep fs r with
    | error e => rfl
    | ok fs1 =>
      dsimp only
      rw [ih l2 fs1]

theorem undoStep_restore {fs : FS} {r : MoveRecord} {v : FileId} (hwf : fs.Wf)
    (hdst : fs.getFile r.destination = some v)
    (hsrcdir : r.source ∉ fs.dirs)
    (hsrcpre : ∀ q : Path, q ≠ [] → q <+: r.source → q = r.source ∨ q ∈ fs.dirs) :
    ∃ fs2, undoStep fs r = .ok fs2 ∧ fs2.dirs = fs.dirs ∧
      fs2.files = fs.files.filter
        (fun q => !(q.1 == r.destination) && !(q.1 == r.source)) ++ [(r.source, v)] ∧
      (∀ p : Path, fs2.getFile p =
        if p = r.source then some v
        else if p = r.destination then none else fs.getFile p) := by
  have hex : fs.existsPath r.destination = true := by
    rw [existsPath_iff]
    exact Or.inl (mem_filePaths_of_getFile hdst)
  have hmk : fs.makedirs r.source.dropLast = .ok fs := by
    apply makedirs_noop hwf
    intro q hq hqp
    have h2 := hqp.trans (List.dropLast_prefix r.source)
    rcases hsrcpre q hq h2 with he | hmem
    · exfalso
      have h5 : 0 < q.length := List.length_pos.mpr hq
      have h4 := hqp.length_le
      rw [List.length_dropLast] at h4
      have h6 : q.length = r.source.length := by rw [he]
      omega
    · exact hmem
  have hsd : fs.isDir r.source = false := isDir_eq_false_iff.mpr hsrcdir
  obtain ⟨fs2, hmv, hdirs, hfiles, hpt⟩ := move_ok_spec hdst hsd
  refine ⟨fs2, ?_, hdirs, hfiles, hpt⟩
  unfold undoStep
  rw [hex]
  simp only [hmk]
  exact hmv

theorem organizeLoop_nil (bad : Path → Bool) (s t : Path) (fs : FS) (ops : List MoveRecord) :
    organizeLoop bad s t [] fs ops = .ok (fs, ops) := rfl

theorem organizeLoop_cons (bad : Path → Bool) (s t : Path) (f : String) (rest : List String)
    (fs : FS) (ops : List MoveRecord) :
    organizeLoop bad s t (f :: rest) fs ops =
      match fs.makedirs (t ++ [getCategory (splitext f).2]) with
      | .error e => .error (e, ops)
      | .ok fs1 =>
        if bad (s ++ [f]) then .error (fs1, ops)
        else
          match fs1.move (s ++ [f])
              (fs1.getUniquePath (t ++ [getCategory (splitext f).2] ++ [f])) with
          | .error e => .error (e, ops)
          | .ok fs2 =>
            organizeLoop bad s t rest fs2 (ops ++
              [{ source := s ++ [f]
               , destination := fs1.getUniquePath (t ++ [getCategory (splitext f).2] ++ [f]) }]) := rfl

theorem organizeLoop_acc (bad : Path → Bool) (s t : Path) :
    ∀ (fl : List String) (fs : FS) (a : List MoveRecord),
      organizeLoop bad s t fl fs a =
        match organizeLoop bad s t fl fs [] with
        | .ok (fs1, rs) => .ok (fs1, a ++ rs)
        | .error (e, rs) => .error (e, a ++ rs) := by
  intro fl
  induction fl with
  | nil => intro fs a; simp [organizeLoop_nil]
  | cons f rest ih =>
    intro fs a
    rw [organizeLoop_cons, organizeLoop_cons]
    cases hmk : fs.makedirs (t ++ [getCategory (splitext f).2]) with
    | error e => simp
    | ok fs1 =>
      dsimp only
      by_cases hb : bad (s ++ [f]) = true
      · rw [if_pos hb, if_pos hb]
        simp
      · rw [if_neg hb, if_neg hb]
        cases hmv : fs1.move (s ++ [f])
            (fs1.getUniquePath (t ++ [getCategory (splitext f).2] ++ [f])) with
        | error e => simp
        | ok fs2 =>
          dsimp only
          rw [ih fs2 (a ++ [(⟨s ++ [f], fs1.getUniquePath (t ++ [getCategory (splitext f).2] ++ [f])⟩ : MoveRecord)]), ih fs2 ([] ++ [(⟨s ++ [f], fs1.getUniquePath (t ++ [getCategory (splitext f).2] ++ [f])⟩ : MoveRecord)])]
          cases organizeLoop bad s t rest fs2 [] with
          | ok pr => cases pr; simp
          | error pr => cases pr; simp

theorem organizeLoop_append (bad : Path → Bool) (s t : Path) :
    ∀ (l1 l2 : List String) (fs : FS),
      organizeLoop bad s t (l1 ++ l2) fs [] =
        match organizeLoop bad s t l1 fs [] with
        | .ok (fs1, rs) =>
          (match organizeLoop bad s t l2 fs1 [] with
           | .ok (fs2, rs2) => .ok (fs2, rs ++ rs2)
           | .error (e, rs2) => .error (e, rs ++ rs2))
        | .error (e, rs) => .error (e, rs) := by
  intro l1
  induction l1 with
  | nil =>
    intro l2 fs
    rw [List.nil_append, organizeLoop_nil]
    dsimp only
    cases organizeLoop bad s t l2 fs [] with
    | ok pr => cases pr; simp
    | error pr => cases pr; simp
  | cons f rest ih =>
    intro l2 fs
    rw [List.cons_append, organizeLoop_cons, organizeLoop_cons]
    cases hmk : fs.makedirs (t ++ [getCategory (splitext f).2]) with
    | error e => simp
    | ok fs1 =>
      dsimp only
      by_cases hb : bad (s ++ [f]) = true
      · rw [if_pos hb, if_pos hb]
      · rw [if_neg hb, if_neg hb]
        cases hmv : fs1.move (s ++ [f])
            (fs1.getUniquePath (t ++ [getCategory (splitext f).2] ++ [f])) with
        | error e => rfl
        | ok fs2 =>
          dsimp only
          rw [organizeLoop_acc bad s t (rest ++ l2) fs2, organizeLoop_acc bad s t rest fs2,
            ih l2 fs2]
          cases hra : organizeLoop bad s t rest fs2 [] with
          | ok pr =>
            cases pr with
            | mk fsa rsa =>
              cases hrb : organizeLoop bad s t l2 fsa [] with
              | ok pr2 => cases pr2; simp [hrb]
              | error pr2 => cases pr2; simp [hrb]
          | error pr => cases pr; simp

theorem organizeLoop_bad_agree (bad : Path → Bool) (s t : Path) :
    ∀ (fl : List String) (fs : FS),
      (∀ f ∈ fl, bad (s ++ [f]) = false) →
      organizeLoop bad s t fl fs [] =
        organizeLoop (fun _ => false) s t fl fs [] := by
  intro fl
  induction fl with
  | nil => intro fs _; rfl
  | cons f rest ih =>
    intro fs hb
    rw [organizeLoop_cons, organizeLoop_cons]
    cases hmk : fs.makedirs (t ++ [getCategory (splitext f).2]) with
    | error e => rfl
    | ok fs1 =>
      dsimp only
      rw [hb f (List.mem_cons_self f rest)]
      simp only [Bool.false_eq_true, if_false]
      cases hmv : fs1.move (s ++ [f])
          (fs1.getUniquePath (t ++ [getCategory (splitext f).2] ++ [f])) with
      | error e => rfl
      | ok fs2 =>
        dsimp only
        rw [organizeLoop_acc bad s t rest fs2,
          organizeLoop_acc (fun _ => false) s t rest fs2,
          ih fs2 (fun g hg => hb g (List.mem_cons_of_mem f hg))]

/-! ### The organize loop inverted by the undo replay: the central bundle. -/

theorem getFile_congr_files {fs fs2 : FS} (h : fs2.files = fs.files) (p : Path) :
    fs2.getFile p = fs.getFile p := by
  unfold FS.getFile
  rw [h]

theorem filePaths_congr {fs fs2 : FS} (h : fs2.files = fs.files) :
    fs2.filePaths = fs.filePaths := by
  unfold FS.filePaths
  rw [h]

theorem snoc_inj {s : Path} {a b : String} (h : s ++ [a] = s ++ [b]) : a = b := by
  have := List.append_cancel_left h
  simpa using this

theorem proper_prefix_dropLast {q p : Path} (h : q <+: p) (hne : q ≠ p) :
    q <+: p.dropLast := by
  rcases List.eq_nil_or_concat p with rfl | ⟨t, a, rfl⟩
  · rw [List.prefix_nil] at h
    exact absurd h hne
  · rw [List.concat_eq_append] at h hne ⊢
    rcases prefix_concat_cases h with rfl | h2
    · exact absurd rfl hne
    · rw [List.dropLast_concat]
      exact h2

theorem organizeLoop_ff_cons (s t : Path) (f : String) (rest : List String)
    (fs : FS) (ops : List MoveRecord) :
    organizeLoop (fun _ => false) s t (f :: rest) fs ops =
      match fs.makedirs (t ++ [getCategory (splitext f).2]) with
      | .error e => .error (e, ops)
      | .ok fs1 =>
        match fs1.move (s ++ [f])
            (fs1.getUniquePath (t ++ [getCategory (splitext f).2] ++ [f])) with
        | .error e => .error (e, ops)
        | .ok fs2 =>
          organizeLoop (fun _ => false) s t rest fs2 (ops ++
            [(⟨s ++ [f], fs1.getUniquePath (t ++ [getCategory (splitext f).2] ++ [f])⟩ :
              MoveRecord)]) := by
  rw [organizeLoop_cons]
  cases fs.makedirs (t ++ [getCategory (splitext f).2]) with
  | error e => rfl
  | ok fs1 =>
    dsimp only
    rw [if_neg (show ¬(false = true) by simp)]

theorem organizeLoop_bundle (source target : Path) :
    ∀ (fl : List String) (fs fs' : FS) (rs : List MoveRecord),
      fs.Wf →
      (∀ f ∈ fl, (source ++ [f]) ∈ fs.filePaths) →
      fl.Nodup →
      organizeLoop (fun _ => false) source target fl fs [] = .ok (fs', rs) →
      (fs'.Wf ∧
       (∀ d ∈ fs.dirs, d ∈ fs'.dirs) ∧
       (∀ d ∈ fs'.dirs, d ∈ fs.dirs ∨ (∃ g ∈ fl, d = target ++ [getCategory (splitext g).2]) ∨
         (d ≠ [] ∧ d <+: target)) ∧
       rs.length = fl.length ∧
       (∀ r ∈ rs, ∃ f ∈ fl, r.source = source ++ [f]) ∧
       (∀ r ∈ rs, fs'.getFile r.destination = fs.getFile r.source) ∧
       (∀ p : Path, p ∈ fs.filePaths → (∀ f ∈ fl, p ≠ source ++ [f]) →
          fs'.getFile p = fs.getFile p) ∧
       (fs'.files.map Prod.snd).Perm (fs.files.map Prod.snd) ∧
       ((target = [] ∨ target ∈ fs.dirs) →
        (∀ f ∈ fl, ∀ g ∈ fl, source ++ [f] ≠ target ++ [getCategory (splitext g).2]) →
        ∃ fs'', undoReplay fs' rs.reverse = .ok fs'' ∧ fs''.dirs = fs'.dirs ∧
          fs''.Wf ∧ (∀ p : Path, fs''.getFile p = fs.getFile p))) := by
  intro fl
  induction fl with
  | nil =>
    intro fs fs' rs hwf hfl hnd hok
    rw [organizeLoop_nil] at hok
    simp only [Except.ok.injEq, Prod.mk.injEq] at hok
    obtain ⟨rfl, rfl⟩ := hok
    refine ⟨hwf, fun d hd => hd, fun d hd => Or.inl hd, rfl, ?_, ?_, ?_, List.Perm.refl _, ?_⟩
    · intro r hr; cases hr
    · intro r hr; cases hr
    · intro p _ _; rfl
    · intro _ _
      exact ⟨fs, rfl, rfl, hwf, fun p => rfl⟩
  | cons f fl ih =>
    intro fs fs' rs hwf hfl hnd hok
    rw [organizeLoop_ff_cons] at hok
    cases hmk : fs.makedirs (target ++ [getCategory (splitext f).2]) with
    | error e =>
      rw [hmk] at hok
      simp at hok
    | ok fs1 =>
      rw [hmk] at hok
      dsimp only at hok
      obtain ⟨mkfiles, mkmono, mkpre, mkchar⟩ := makedirs_ok_spec hmk
      have hwf1 : fs1.Wf := makedirs_wf hwf hmk
      have hcatne : target ++ [getCategory (splitext f).2] ≠ ([] : Path) := by simp
      have hcatdir : target ++ [getCategory (splitext f).2] ∈ fs1.dirs :=
        mkpre _ hcatne (List.prefix_refl _)
      have hsrc_mem : source ++ [f] ∈ fs.filePaths := hfl f (List.mem_cons_self f fl)
      obtain ⟨v, hv⟩ := getFile_some_exists hsrc_mem
      have hfp1 : fs1.filePaths = fs.filePaths := filePaths_congr mkfiles
      have hv1 : fs1.getFile (source ++ [f]) = some v := by
        rw [getFile_congr_files mkfiles]
        exact hv
      have hplne : target ++ [getCategory (splitext f).2] ++ [f] ≠ ([] : Path) := by simp
      have hfresh : fs1.existsPath
          (fs1.getUniquePath (target ++ [getCategory (splitext f).2] ++ [f])) = false :=
        getUniquePath_fresh hplne
      obtain ⟨hfreshF, hfreshD⟩ := existsPath_eq_false.mp hfresh
      rw [hfp1] at hfreshF
      have hdl : (fs1.getUniquePath (target ++ [getCategory (splitext f).2] ++ [f])).dropLast
          = target ++ [getCategory (splitext f).2] := by
        rw [getUniquePath_dropLast hplne]
        exact List.dropLast_concat
      have hdne : fs1.getUniquePath (target ++ [getCategory (splitext f).2] ++ [f]) ≠ [] :=
        getUniquePath_ne_nil hplne
      have hdpre : ∀ q ∈ pathPrefixes
          (fs1.getUniquePath (target ++ [getCategory (splitext f).2] ++ [f])),
          q ≠ fs1.getUniquePath (target ++ [getCategory (splitext f).2] ++ [f]) →
          q ∈ fs1.dirs := by
        intro q hq hqne
        obtain ⟨hqnil, hqpre⟩ := mem_pathPrefixes.mp hq
        have h2 := proper_prefix_dropLast hqpre hqne
        rw [hdl] at h2
        exact mkpre q hqnil h2
      have hdirfal : fs1.isDir
          (fs1.getUniquePath (target ++ [getCategory (splitext f).2] ++ [f])) = false :=
        isDir_eq_false_iff.mpr hfreshD
      obtain ⟨fs2x, hmv2, hdirs2, hfiles2, hpt2⟩ := move_ok_spec hv1 hdirfal
      rw [hmv2] at hok
      dsimp only at hok
      rw [organizeLoop_acc] at hok
      cases hrec : organizeLoop (fun _ => false) source target fl fs2x [] with
      | error pr =>
        rw [hrec] at hok
        cases pr
        simp at hok
      | ok pr =>
        cases pr with
        | mk fsA rs2 =>
          rw [hrec] at hok
          dsimp only at hok
          rw [List.nil_append, List.singleton_append] at hok
          simp only [Except.ok.injEq, Prod.mk.injEq] at hok
          obtain ⟨rfl, rfl⟩ := hok
          have hwf2 : fs2x.Wf := move_wf hwf1 hdirs2 hfiles2 hfreshD hdne hdpre
          have hnd2 : fl.Nodup := (List.nodup_cons.mp hnd).2
          have hfnotin : f ∉ fl := (List.nodup_cons.mp hnd).1
          have hsrcne : ∀ g ∈ fl, source ++ [g] ≠ source ++ [f] := by
            intro g hg he
            exact hfnotin (snoc_inj he ▸ hg)
          have hsrcnedst : ∀ g ∈ fl, (source ++ [g] : Path) ≠
              fs1.getUniquePath (target ++ [getCategory (splitext f).2] ++ [f]) := by
            intro g hg he
            apply hfreshF
            rw [← he]
            exact hfl g (List.mem_cons_of_mem f hg)
          have hgf2 : ∀ g ∈ fl, fs2x.getFile (source ++ [g]) = fs.getFile (source ++ [g]) := by
            intro g hg
            rw [hpt2 (source ++ [g]), if_neg (hsrcnedst g hg), if_neg (hsrcne g hg),
              getFile_congr_files mkfiles]
          have hmem2 : ∀ g ∈ fl, (source ++ [g]) ∈ fs2x.filePaths := by
            intro g hg
            rw [← getFile_isSome_iff, hgf2 g hg, getFile_isSome_iff]
            exact hfl g (List.mem_cons_of_mem f hg)
          obtain ⟨ihWf, ihMono, ihChar, ihLen, ihSrc, ihDst, ihFrame, ihPerm,
            ihReplayFn⟩ :=
            ih fs2x fsA rs2 hwf2 hmem2 hnd2 hrec
          have hdirchar : ∀ d ∈ fsA.dirs, d ∈ fs.dirs ∨
              (∃ g ∈ f :: fl, d = target ++ [getCategory (splitext g).2]) ∨
              (d ≠ [] ∧ d <+: target) := by
            intro d hd
            rcases ihChar d hd with hd2 | ⟨g, hg, hge⟩ | ⟨hdnil, hdpre2⟩
            · rw [hdirs2] at hd2
              rcases mkchar d hd2 with hd3 | ⟨hdnil, hdpre2⟩
              · exact Or.inl hd3
              · rcases prefix_concat_cases hdpre2 with rfl | hd4
                · exact Or.inr (Or.inl ⟨f, List.mem_cons_self f fl, rfl⟩)
                · exact Or.inr (Or.inr ⟨hdnil, hd4⟩)
            · exact Or.inr (Or.inl ⟨g, List.mem_cons_of_mem f hg, hge⟩)
            · exact Or.inr (Or.inr ⟨hdnil, hdpre2⟩)
          have hmono : ∀ d ∈ fs.dirs, d ∈ fsA.dirs := by
            intro d hd
            apply ihMono
            rw [hdirs2]
            exact mkmono d hd
          have hdst_memA : fs1.getUniquePath (target ++ [getCategory (splitext f).2] ++ [f])
              ∈ fs2x.filePaths := by
            rw [← getFile_isSome_iff, hpt2, if_pos rfl]
            rfl
          have hdstA : fsA.getFile
              (fs1.getUniquePath (target ++ [getCategory (splitext f).2] ++ [f])) = some v := by
            rw [ihFrame _ hdst_memA ?_, hpt2, if_pos rfl]
            intro g hg he
            exact hsrcnedst g hg he.symm
          refine ⟨ihWf, hmono, hdirchar, ?_, ?_, ?_, ?_, ?_, ?_⟩
          · simp [ihLen]
          · intro r hr
            rcases List.mem_cons.mp hr with rfl | hr2
            · exact ⟨f, List.mem_cons_self f fl, rfl⟩
            · obtain ⟨g, hg, hge⟩ := ihSrc r hr2
              exact ⟨g, List.mem_cons_of_mem f hg, hge⟩
          · intro r hr
            rcases List.mem_cons.mp hr with rfl | hr2
            · rw [hdstA, hv]
            · obtain ⟨g, hg, hge⟩ := ihSrc r hr2
              rw [ihDst r hr2, hge, hgf2 g hg]
          · intro p hp hpne
            have hpne2 : ∀ g ∈ fl, p ≠ source ++ [g] :=
              fun g hg => hpne g (List.mem_cons_of_mem f hg)
            have hpnedst : p ≠ fs1.getUniquePath
                (target ++ [getCategory (splitext f).2] ++ [f]) := by
              intro he
              apply hfreshF
              rw [← he]
              exact hp
            have hp2 : fs2x.getFile p = fs.getFile p := by
              rw [hpt2, if_neg hpnedst, if_neg (hpne f (List.mem_cons_self f fl)),
                getFile_congr_files mkfiles]
            have hpmem2 : p ∈ fs2x.filePaths := by
              rw [← getFile_isSome_iff, hp2, getFile_isSome_iff]
              exact hp
            rw [ihFrame p hpmem2 hpne2, hp2]
          · have hperm2 : (fs2x.files.map Prod.snd).Perm (fs1.files.map Prod.snd) :=
              move_snd_perm hwf1.1 hv1 (by rw [hfp1]; exact hfreshF) hfiles2
            have hperm1 : fs1.files.map Prod.snd = fs.files.map Prod.snd := by
              rw [mkfiles]
            exact ihPerm.trans (hperm1 ▸ hperm2)
          · intro htgt hsep
            have htgt2 : target = [] ∨ target ∈ fs2x.dirs := by
              rcases htgt with hn | hm
              · exact Or.inl hn
              · right
                rw [hdirs2]
                exact mkmono target hm
            have hsep2 : ∀ a ∈ fl, ∀ g ∈ fl, source ++ [a] ≠
                target ++ [getCategory (splitext g).2] :=
              fun a ha g hg => hsep a (List.mem_cons_of_mem f ha) g (List.mem_cons_of_mem f hg)
            obtain ⟨fsB, ihReplay, ihDirs, ihBWf, ihBpt⟩ := ihReplayFn htgt2 hsep2
            have hsrcdirB : source ++ [f] ∉ fsB.dirs := by
              rw [ihDirs]
              intro hmem
              rcases hdirchar _ hmem with hd | ⟨g, hg, hge⟩ | ⟨hsnil, hspre⟩
              · exact hwf.2.2.1 _ hsrc_mem hd
              · exact hsep f (List.mem_cons_self f fl) g hg hge
              · rcases htgt with hn | hm
                · rw [hn, List.prefix_nil] at hspre
                  exact hsnil hspre
                · have hsm : source ++ [f] ∈ fs.dirs := by
                    by_cases hst : source ++ [f] = target
                    · rw [hst]; exact hm
                    · exact hwf.2.2.2.2.2 target hm (source ++ [f])
                        (mem_pathPrefixes.mpr ⟨hsnil, hspre⟩) hst
                  exact hwf.2.2.1 _ hsrc_mem hsm
            have hsrcpreB : ∀ q : Path, q ≠ [] → q <+: source ++ [f] →
                q = source ++ [f] ∨ q ∈ fsB.dirs := by
              intro q hq hqp
              by_cases hqe : q = source ++ [f]
              · exact Or.inl hqe
              · right
                rw [ihDirs]
                apply ihMono
                rw [hdirs2]
                apply mkmono
                exact hwf.2.2.2.2.1 _ hsrc_mem q (mem_pathPrefixes.mpr ⟨hq, hqp⟩) hqe
            have hdstB : fsB.getFile
                (fs1.getUniquePath (target ++ [getCategory (splitext f).2] ++ [f]))
                = some v := by
              rw [ihBpt, hpt2, if_pos rfl]
            obtain ⟨fsC, hstep, hdirsC, hfilesC, hptC⟩ :=
              undoStep_restore (r := (⟨source ++ [f],
                fs1.getUniquePath (target ++ [getCategory (splitext f).2] ++ [f])⟩ : MoveRecord))
                ihBWf hdstB hsrcdirB hsrcpreB
            refine ⟨fsC, ?_, ?_, ?_, ?_⟩
            · rw [List.reverse_cons, undoReplay_append, ihReplay]
              dsimp only
              rw [undoReplay_cons, hstep]
              dsimp only
              exact undoReplay_nil fsC
            · rw [hdirsC, ihDirs]
            · apply move_wf ihBWf hdirsC hfilesC hsrcdirB (by simp)
              intro q hq hqne
              obtain ⟨hqnil, hqpre⟩ := mem_pathPrefixes.mp hq
              rcases hsrcpreB q hqnil hqpre with he | hmem
              · exact absurd he hqne
              · exact hmem
            · intro p
              rw [hptC]
              by_cases hps : p = source ++ [f]
              · rw [if_pos hps, hps, hv]
              · rw [if_neg hps]
                by_cases hpd : p = fs1.getUniquePath
                    (target ++ [getCategory (splitext f).2] ++ [f])
                · rw [if_pos hpd, hpd]
                  symm
                  rw [getFile_eq_none_iff]
                  exact hfreshF
                · rw [if_neg hpd, ihBpt, hpt2, if_neg hpd, if_neg hps,
                    getFile_congr_files mkfiles]

/-! ### Top-level `organize_by_type` and `undo_last_operation` lemmas. -/

theorem isFile_congr_files {fs fs2 : FS} (h : fs2.files = fs.files) (p : Path) :
    fs2.isFile p = fs.isFile p := by
  unfold FS.isFile
  rw [h]

theorem makedirs_ok_no_file :
    ∀ (rev : List String) (fs fs' : FS), fs.makedirsAux rev = .ok fs' →
      ∀ q : Path, q ≠ [] → q <+: rev.reverse → fs.isFile q = false := by
  intro rev
  induction rev with
  | nil =>
    intro fs fs' h q hq hqp
    rw [List.reverse_nil, List.prefix_nil] at hqp
    exact absurd hqp hq
  | cons h tl ih =>
    intro fs fs' hok q hq hqp
    unfold FS.makedirsAux at hok
    cases haux : fs.makedirsAux tl with
    | error e => rw [haux] at hok; cases hok
    | ok fs1 =>
      rw [haux] at hok
      have hrev : (h :: tl).reverse = tl.reverse ++ [h] := by simp
      rw [hrev] at hqp
      rcases prefix_concat_cases hqp with rfl | h3
      · obtain ⟨f1, _, _, _⟩ := makedirsAux_ok_spec tl fs fs1 haux
        dsimp only at hok
        unfold FS.mkdirOne at hok
        by_cases hf : fs1.isFile (h :: tl).reverse = true
        · rw [if_pos hf] at hok; cases hok
        · have hres : fs.isFile ((h :: tl).reverse) = false := by
            cases hb : fs.isFile ((h :: tl).reverse)
            · rfl
            · exfalso
              apply hf
              rw [isFile_congr_files f1]
              exact hb
          rw [hrev] at hres
          exact hres
      · exact ih fs fs1 haux q hq h3

theorem organize_ok_spec {st : Store} {source : Path} {dd : Option Path} {res : OrgOk}
    (hwf : st.fs.Wf)
    (h : organize_by_type (fun _ => false) st source dd = .ok res) :
    ∃ fs0 fs1 ops,
      fs0.files = st.fs.files ∧ fs0.Wf ∧
      (∀ d ∈ st.fs.dirs, d ∈ fs0.dirs) ∧
      (∀ d ∈ fs0.dirs, d ∈ st.fs.dirs ∨ (d ≠ [] ∧ d <+: (dd.getD source))) ∧
      (st.fs.existsPath (dd.getD source) = false →
        (dd.getD source) = [] ∨ (dd.getD source) ∈ fs0.dirs) ∧
      (st.fs.existsPath (dd.getD source) = true → fs0 = st.fs) ∧
      organizeLoop (fun _ => false) source (dd.getD source)
        (fs0.listFiles source) fs0 [] = .ok (fs1, ops) ∧
      res = ⟨⟨fs1, [mkOperation (r"organize_by_type") source (dd.getD source) ops],
        st.timeline ++ [mkOperation (r"organize_by_type") source (dd.getD source) ops]⟩,
        none⟩ := by
  unfold organize_by_type at h
  by_cases hex : st.fs.existsPath source = true
  · rw [if_pos hex] at h
    dsimp only at h
    by_cases het : st.fs.existsPath (dd.getD source) = true
    · rw [if_pos het] at h
      dsimp only at h
      cases hrec : organizeLoop (fun _ => false) source (dd.getD source)
          (st.fs.listFiles source) st.fs [] with
      | error pr =>
        rw [hrec] at h
        cases pr
        simp at h
      | ok pr =>
        cases pr with
        | mk fs1 ops =>
          rw [hrec] at h
          dsimp only at h
          refine ⟨st.fs, fs1, ops, rfl, hwf, fun d hd => hd, fun d hd => Or.inl hd,
            ?_, fun _ => rfl, hrec, ?_⟩
          · intro hfal
            rw [het] at hfal
            cases hfal
          · simp only [Except.ok.injEq] at h
            exact h.symm
    · have het2 : st.fs.existsPath (dd.getD source) = false := by
        cases hb : st.fs.existsPath (dd.getD source)
        · rfl
        · exact absurd hb het
      rw [if_neg het] at h
      cases hmk : st.fs.makedirs (dd.getD source) with
      | error e =>
        rw [hmk] at h
        dsimp only at h
        cases h
      | ok fs0 =>
        rw [hmk] at h
        dsimp only at h
        obtain ⟨f1, mono, pre, char⟩ := makedirs_ok_spec hmk
        cases hrec : organizeLoop (fun _ => false) source (dd.getD source)
            (fs0.listFiles source) fs0 [] with
        | error pr =>
          rw [hrec] at h
          cases pr
          simp at h
        | ok pr =>
          cases pr with
          | mk fs1 ops =>
            rw [hrec] at h
            dsimp only at h
            refine ⟨fs0, fs1, ops, f1, makedirs_wf hwf hmk, mono, char, ?_, ?_, hrec, ?_⟩
            · intro _
              by_cases hnil : dd.getD source = ([] : Path)
              · exact Or.inl hnil
              · exact Or.inr (pre _ hnil (List.prefix_refl _))
            · intro hcon
              rw [hcon] at het2
              cases het2
            · simp only [Except.ok.injEq] at h
              exact h.symm
  · rw [if_neg hex] at h
    cases h

theorem move_dirs_eq {fs fs2 : FS} {src dst : Path} (h : fs.move src dst = .ok fs2) :
    fs2.dirs = fs.dirs := by
  unfold FS.move at h
  cases hg : fs.getFile src with
  | none => rw [hg] at h; cases h
  | some fid =>
    rw [hg] at h
    dsimp only at h
    by_cases hd2 : fs.isDir
        (if fs.isDir dst = true then dst ++ (List.getLast? src).toList else dst) = true
    · rw [if_pos hd2] at h
      cases h
    · rw [if_neg hd2] at h
      simp only [Except.ok.injEq] at h
      rw [← h]

theorem organizeLoop_dirs_mono (bad : Path → Bool) (s t : Path) :
    ∀ (fl : List String) (fs fs' : FS) (rs a : List MoveRecord),
      organizeLoop bad s t fl fs a = .ok (fs', rs) → ∀ d ∈ fs.dirs, d ∈ fs'.dirs := by
  intro fl
  induction fl with
  | nil =>
    intro fs fs' rs a h d hd
    rw [organizeLoop_nil] at h
    simp only [Except.ok.injEq, Prod.mk.injEq] at h
    rw [← h.1]
    exact hd
  | cons f rest ih =>
    intro fs fs' rs a h d hd
    rw [organizeLoop_cons] at h
    cases hmk : fs.makedirs (t ++ [getCategory (splitext f).2]) with
    | error e => rw [hmk] at h; cases h
    | ok fs1 =>
      rw [hmk] at h
      dsimp only at h
      by_cases hb : bad (s ++ [f]) = true
      · rw [if_pos hb] at h; cases h
      · rw [if_neg hb] at h
        cases hmv : fs1.move (s ++ [f])
            (fs1.getUniquePath (t ++ [getCategory (splitext f).2] ++ [f])) with
        | error e => rw [hmv] at h; cases h
        | ok fs2 =>
          rw [hmv] at h
          dsimp only at h
          apply ih fs2 fs' rs _ h
          rw [move_dirs_eq hmv]
          exact (makedirs_ok_spec hmk).2.1 d hd

theorem undo_ok_eq {st : Store} {op : Operation} {fsOut : FS}
    (hh : st.histFile = [op])
    (hreplay : undoReplay st.fs op.operations.reverse = .ok fsOut) :
    undo_last_operation st =
      ({ fs := fsOut.cleanupBelow op.target_dir
       , histFile := []
       , timeline := st.timeline ++ [mkOperation (r"undo") op.source_dir op.target_dir []] }
      , true) := by
  unfold undo_last_operation
  rw [hh]
  dsimp only
  unfold undoTry
  rw [hreplay]

/-! ### Claims. -/

/-- C2.  Whenever the stored history is empty, `undo_last_operation` returns
`false` and performs zero filesystem mutation: the whole persistent state —
filesystem, history file and timeline — is returned unchanged. -/
theorem C2_undo_empty_history_noop (st : Store) (h : st.histFile = []) :
    undo_last_operation st = (st, false) := by
  unfold undo_last_operation
  rw [h]

theorem C2_witness :
    undo_last_operation ⟨⟨[([r"a", r"f.txt"], 7)], [[r"a"]]⟩, [], []⟩
      = (⟨⟨[([r"a", r"f.txt"], 7)], [[r"a"]]⟩, [], []⟩, false) :=
  C2_undo_empty_history_noop _ rfl

/-- C4.  A missing source directory makes `organize_by_type` fail with the
not-found error carrying the unchanged store (so nothing was mutated: no
directory created, no file moved, no history or timeline write).  When the
source exists, the target defaults to the source directory (the recorded
batch shows the defaulted target), and a nonexistent target directory is
created by the call. -/
theorem C4_source_missing_fails_fast (st : Store) (source : Path) (dd : Option Path) :
    (st.fs.existsPath source = false →
      organize_by_type (fun _ => false) st source dd = .error (.notFound, st)) ∧
    (∀ res : OrgOk, st.fs.Wf →
      organize_by_type (fun _ => false) st source dd = .ok res →
      (∃ ops, res.store.histFile = [mkOperation (r"organize_by_type") source (dd.getD source) ops]) ∧
      (st.fs.existsPath (dd.getD source) = false → dd.getD source ≠ [] →
        dd.getD source ∈ res.store.fs.dirs)) := by
  constructor
  · intro h
    unfold organize_by_type
    rw [h]
    rfl
  · intro res hwf h
    obtain ⟨fs0, fs1, ops, hfiles0, hwf0, hmono0, hchar0, hcreate, hsame,
      hrec, hres⟩ := organize_ok_spec hwf h
    constructor
    · exact ⟨ops, by rw [hres]⟩
    · intro habs hne
      rcases hcreate habs with hnil | hmem
      · exact absurd hnil hne
      · rw [hres]
        exact organizeLoop_dirs_mono _ _ _ _ fs0 fs1 ops [] hrec _ hmem

theorem C4_witness :
    (⟨⟨[], []⟩, [], []⟩ : Store).fs.existsPath [r"gone"] = false ∧
    organize_by_type (fun _ => false) ⟨⟨[], []⟩, [], []⟩ [r"gone"] none
      = .error (.notFound, ⟨⟨[], []⟩, [], []⟩) :=
  ⟨by decide, (C4_source_missing_fails_fast ⟨⟨[], []⟩, [], []⟩ [r"gone"] none).1 (by decide)⟩

/-- C5.  `_get_unique_path` returns an unoccupied path unchanged; an occupied
path gets the first counter suffix `_1`, `_2`, … (inserted before the
extension) whose candidate is unoccupied, every smaller counter being
occupied.  Consequently organizing `s/a.jpg` into a target that already
holds `t/images/a.jpg` keeps both contents: the pre-existing file intact and
the moved file renamed `a_1.jpg` — nothing is overwritten. -/
theorem C5_unique_path_first_free (fs : FS) (p : Path) (hne : p ≠ []) :
    (fs.existsPath p = false → fs.getUniquePath p = p) ∧
    (fs.existsPath p = true →
      ∃ k, 1 ≤ k ∧
        fs.getUniquePath p = p.dropLast ++
          [uniqueName (splitext (p.getLast hne)).1 (splitext (p.getLast hne)).2 k] ∧
        fs.existsPath (p.dropLast ++
          [uniqueName (splitext (p.getLast hne)).1 (splitext (p.getLast hne)).2 k]) = false ∧
        ∀ m, 1 ≤ m → m < k →
          fs.existsPath (p.dropLast ++
            [uniqueName (splitext (p.getLast hne)).1 (splitext (p.getLast hne)).2 m]) = true) ∧
    ((organize_by_type (fun _ => false) colStore [r"s"] (some [r"t"])).map
      (fun res => (res.store.fs.getFile [r"t", r"images", r"a.jpg"],
                   res.store.fs.getFile [r"t", r"images", r"a_1.jpg"])))
      = .ok (some 5, some 0) := by
  refine ⟨getUniquePath_of_not_exists, getUniquePath_spec hne, ?_⟩
  rfl

theorem C5_witness :
    colStore.fs.existsPath [r"t", r"fresh.txt"] = false ∧
    ([r"t", r"fresh.txt"] : Path) ≠ [] ∧
    colStore.fs.getUniquePath [r"t", r"fresh.txt"] = [r"t", r"fresh.txt"] :=
  ⟨by decide, by decide,
    (C5_unique_path_first_free colStore.fs [r"t", r"fresh.txt"] (by decide)).1 (by decide)⟩

/-- C6.  Category resolution lower-cases the extension and takes the first
match over the table's declared order (`categorySpec` is the spec's
first-match description), unmatched extensions falling back to `others`;
in particular `.jpg` (and `.JPG`) files go under `images/`, `.txt` under
`documents/`, `.xyz` under `others/` — shown both on the resolver and on a
full organize pass over `a.jpg`, `b.txt`, `c.xyz`. -/
theorem C6_category_resolution :
    (∀ ext : String, getCategory ext = categorySpec ext) ∧
    getCategory (r".jpg") = (r"images") ∧
    getCategory (r".JPG") = (r"images") ∧
    getCategory (r".txt") = (r"documents") ∧
    getCategory (r".xyz") = (r"others") ∧
    ((organize_by_type (fun _ => false) scnStore [r"s"] none).map
      (fun res => (res.store.fs.getFile [r"s", r"images", r"a.jpg"],
                   res.store.fs.getFile [r"s", r"documents", r"b.txt"],
                   res.store.fs.getFile [r"s", r"others", r"c.xyz"])))
      = .ok (some 0, some 1, some 2) := by
  refine ⟨fun ext => getCategoryAux_eq ext file_types, rfl, rfl, rfl, rfl, rfl⟩

theorem organize_hist_independent (bad : Path → Bool) (fs : FS)
    (h1 h2 tl : List Operation) (s : Path) (dd : Option Path) (res : OrgOk)
    (h : organize_by_type bad ⟨fs, h1, tl⟩ s dd = .ok res) :
    organize_by_type bad ⟨fs, h2, tl⟩ s dd = .ok res := by
  unfold organize_by_type at h ⊢
  by_cases hex : fs.existsPath s = true
  · rw [if_pos hex] at h ⊢
    dsimp only at h ⊢
    cases hm : (if fs.existsPath (dd.getD s) then Except.ok fs
        else fs.makedirs (dd.getD s) : Except FS FS) with
    | error e =>
      rw [hm] at h
      dsimp only at h
      cases h
    | ok fs0 =>
      rw [hm] at h
      dsimp only at h ⊢
      cases hrec : organizeLoop bad s (dd.getD s) (fs0.listFiles s) fs0 [] with
      | error pr =>
        rw [hrec] at h
        cases pr
        simp at h
      | ok pr =>
        cases pr
        rw [hrec] at h
        dsimp only at h ⊢
        exact h
  · rw [if_neg hex] at h
    cases h

/-- C1 as stated is refuted by `cexStore`: the source directory `a` holds a
file named `images` (listed first) and `b.jpg`.  Organize succeeds, moving
`a/images` to `a/others/images` and creating the directory `a/images` for
`b.jpg`.  During undo, `shutil.move(a/others/images, a/images)` finds an
existing directory at the destination and moves the file *into* it, so the
round trip ends with the file at `a/images/images` instead of `a/images`,
although undo reports success. -/
theorem C1_counterexample :
    cexStore.fs.getFile [r"a", r"images"] = some 0 ∧
    ((organize_by_type (fun _ => false) cexStore [r"a"] none).map
      (fun res => ((undo_last_operation res.store).2,
        (undo_last_operation res.store).1.fs.getFile [r"a", r"images"],
        (undo_last_operation res.store).1.fs.getFile [r"a", r"images", r"images"])))
      = .ok (true, none, some 0) :=
  ⟨rfl, rfl⟩

/-- C1 (amended).  For every well-formed directory state in which no listed
source file shares its full path with a category folder of the pass
(the condition the counterexample violates), organize followed immediately
by undo returns `true`, restores the exact original (path, file) mapping,
and leaves no empty directory (in particular no empty category folder)
below the target directory. -/
theorem C1_roundtrip_restores (st : Store) (source : Path) (dd : Option Path) (res : OrgOk)
    (hwf : st.fs.Wf)
    (hsep : ∀ f ∈ st.fs.listFiles source, ∀ g ∈ st.fs.listFiles source,
      source ++ [f] ≠ (dd.getD source) ++ [getCategory (splitext g).2])
    (hok : organize_by_type (fun _ => false) st source dd = .ok res) :
    (undo_last_operation res.store).2 = true ∧
    (∀ p : Path, (undo_last_operation res.store).1.fs.getFile p = st.fs.getFile p) ∧
    (∀ d ∈ (undo_last_operation res.store).1.fs.dirs,
      (dd.getD source) <+: d → d ≠ (dd.getD source) →
      (undo_last_operation res.store).1.fs.isEmptyDir d = false) := by
  obtain ⟨fs0, fs1, ops, hfiles0, hwf0, hmono0, hchar0, hcreate, hsame, hrec, hres⟩ :=
    organize_ok_spec hwf hok
  have hlist_eq : fs0.listFiles source = st.fs.listFiles source :=
    listFiles_files_eq hfiles0 source
  cases hfl0 : fs0.listFiles source with
  | nil =>
    rw [hfl0, organizeLoop_nil] at hrec
    simp only [Except.ok.injEq, Prod.mk.injEq] at hrec
    obtain ⟨hfs01, hops⟩ := hrec
    have hrep : undoReplay res.store.fs
        (mkOperation (r"organize_by_type") source (dd.getD source) ops).operations.reverse
        = .ok fs1 := by
      rw [hres]
      show undoReplay fs1 ops.reverse = .ok fs1
      rw [← hops]
      exact undoReplay_nil fs1
    have hundo := @undo_ok_eq res.store
      (mkOperation (r"organize_by_type") source (dd.getD source) ops) fs1
      (by rw [hres]) hrep
    rw [hundo]
    dsimp only [mkOperation]
    refine ⟨rfl, ?_, ?_⟩
    · intro p
      rw [getFile_congr_files (cleanupBelow_files fs1 (dd.getD source)),
        getFile_congr_files (hfs01 ▸ hfiles0)]
    · have hwf1 : fs1.Wf := hfs01 ▸ hwf0
      exact cleanupBelow_no_empty_below hwf1
  | cons f rest =>
    have hfl : ∀ g ∈ fs0.listFiles source, (source ++ [g]) ∈ fs0.filePaths :=
      fun g hg => mem_listFiles.mp hg
    have hnd : (fs0.listFiles source).Nodup := listFiles_nodup hwf0.1 source
    obtain ⟨bWf, bMono, bChar, bLen, bSrc, bDst, bFrame, bPerm, bReplayFn⟩ :=
      organizeLoop_bundle source (dd.getD source) (fs0.listFiles source) fs0 fs1 ops
        hwf0 hfl hnd hrec
    have hsep0 : ∀ a ∈ fs0.listFiles source, ∀ g ∈ fs0.listFiles source,
        source ++ [a] ≠ (dd.getD source) ++ [getCategory (splitext g).2] := by
      rw [hlist_eq]
      exact hsep
    have htgt : (dd.getD source) = [] ∨ (dd.getD source) ∈ fs0.dirs := by
      by_cases het : st.fs.existsPath (dd.getD source) = true
      · have hfs0 := hsame het
        rcases existsPath_iff.mp het with hfile | hdir
        · exfalso
          rw [hfl0, organizeLoop_ff_cons] at hrec
          cases hmk1 : fs0.makedirs ((dd.getD source) ++ [getCategory (splitext f).2]) with
          | error e => rw [hmk1] at hrec; cases hrec
          | ok fs1x =>
            have hne : dd.getD source ≠ ([] : Path) := by
              rw [← hfs0] at hfile
              exact hwf0.2.2.2.1 _ hfile
            have hnofile := makedirs_ok_no_file ((dd.getD source)
              ++ [getCategory (splitext f).2]).reverse fs0 fs1x hmk1 (dd.getD source) hne
              (by rw [List.reverse_reverse]; exact ⟨[getCategory (splitext f).2], rfl⟩)
            rw [← hfs0] at hfile
            rw [isFile_iff.mpr hfile] at hnofile
            cases hnofile
        · right
          rw [hfs0]
          exact hdir
      · rcases hcreate (by cases hb : st.fs.existsPath (dd.getD source) with
          | true => exact absurd hb het
          | false => rfl) with hnil | hmem
        · exact Or.inl hnil
        · exact Or.inr hmem
    obtain ⟨fsB, hreplay, hdirsB, hwfB, hptB⟩ := bReplayFn htgt hsep0
    have hrep : undoReplay res.store.fs
        (mkOperation (r"organize_by_type") source (dd.getD source) ops).operations.reverse
        = .ok fsB := by
      rw [hres]
      show undoReplay fs1 ops.reverse = .ok fsB
      exact hreplay
    have hundo := @undo_ok_eq res.store
      (mkOperation (r"organize_by_type") source (dd.getD source) ops) fsB
      (by rw [hres]) hrep
    rw [hundo]
    dsimp only [mkOperation]
    refine ⟨rfl, ?_, ?_⟩
    · intro p
      rw [getFile_congr_files (cleanupBelow_files fsB (dd.getD source)), hptB,
        getFile_congr_files hfiles0]
    · exact cleanupBelow_no_empty_below hwfB

theorem C1_witness :
    scnStore.fs.Wf ∧
    (∀ f ∈ scnStore.fs.listFiles [r"s"], ∀ g ∈ scnStore.fs.listFiles [r"s"],
      [r"s"] ++ [f] ≠ ((none : Option Path).getD [r"s"]) ++ [getCategory (splitext g).2]) ∧
    (match organize_by_type (fun _ => false) scnStore [r"s"] none with
     | .ok res => (undo_last_operation res.store).2 = true ∧
         (undo_last_operation res.store).1.fs.getFile [r"s", r"a.jpg"] = some 0
     | .error _ => False) := by
  refine ⟨by decide, by decide, ?_⟩
  cases h : organize_by_type (fun _ => false) scnStore [r"s"] none with
  | error e =>
    have hs : (organize_by_type (fun _ => false) scnStore [r"s"] none).toOption.isSome
        = true := by decide
    rw [h] at hs
    cases hs
  | ok res =>
    obtain ⟨h1, h2, _⟩ :=
      C1_roundtrip_restores scnStore [r"s"] none res (by decide) (by decide) h
    exact ⟨h1, (h2 [r"s", r"a.jpg"]).trans (by decide)⟩

/-- C3.  The persisted history is single-slot: a successful organize stores
exactly one batch (its own), a successful undo clears the store to empty,
and the stored result of an organize run does not depend on whatever batch
was stored before (so after two sequential organize calls only the second
call's moves are undoable).  The concrete run shows it: organize twice over
the scenario directory, then undo — `a.jpg` stays in `images/` (the first
call's move is not reverted) while undo still reports success. -/
theorem C3_history_single_slot :
    (∀ (st : Store) (source : Path) (dd : Option Path) (res : OrgOk), st.fs.Wf →
      organize_by_type (fun _ => false) st source dd = .ok res →
      ∃ ops, res.store.histFile =
        [mkOperation (r"organize_by_type") source (dd.getD source) ops]) ∧
    (∀ st : Store, (undo_last_operation st).2 = true →
      (undo_last_operation st).1.histFile = []) ∧
    (∀ (bad : Path → Bool) (fs : FS) (h1 h2 tl : List Operation)
       (source : Path) (dd : Option Path) (res : OrgOk),
      organize_by_type bad ⟨fs, h1, tl⟩ source dd = .ok res →
      organize_by_type bad ⟨fs, h2, tl⟩ source dd = .ok res) ∧
    ((organize_by_type (fun _ => false) scnStore [r"s"] none).map (fun r1 =>
      (organize_by_type (fun _ => false) r1.store [r"s"] none).map (fun r2 =>
        ((undo_last_operation r2.store).1.fs.getFile [r"s", r"images", r"a.jpg"],
         (undo_last_operation r2.store).2))))
      = .ok (.ok (some 0, true)) := by
  refine ⟨?_, ?_, organize_hist_independent, rfl⟩
  · intro st source dd res hwf h
    obtain ⟨fs0, fs1, ops, _, _, _, _, _, _, _, hres⟩ := organize_ok_spec hwf h
    exact ⟨ops, by rw [hres]⟩
  · intro st h
    unfold undo_last_operation at h ⊢
    cases hh : st.histFile with
    | nil =>
      rw [hh] at h
      dsimp only at h
      cases h
    | cons op rest =>
      rw [hh] at h
      dsimp only at h ⊢
      cases ht : undoTry st.fs op with
      | ok fsx =>
        rfl
      | error e =>
        rw [ht] at h
        dsimp only at h
        cases h

theorem C3_witness :
    scnStore.fs.Wf ∧
    (match organize_by_type (fun _ => false) scnStore [r"s"] none with
     | .ok res => res.store.histFile.length = 1
     | .error _ => False) := by
  refine ⟨by decide, ?_⟩
  cases h : organize_by_type (fun _ => false) scnStore [r"s"] none with
  | error e =>
    have hs : (organize_by_type (fun _ => false) scnStore [r"s"] none).toOption.isSome
        = true := by decide
    rw [h] at hs
    cases hs
  | ok res =>
    obtain ⟨ops, hh⟩ := C3_history_single_slot.1 scnStore [r"s"] none res (by decide) h
    show res.store.histFile.length = 1
    rw [hh]
    rfl

/-- C7.  The undo replay: a record whose destination is missing is skipped
without affecting the remaining replay; a record whose destination exists
has the file moved back to its recorded source (the destination slot
emptied, everything else untouched); the source's parent directory chain
exists after a successful restoring step; and replaying a stored batch
processes the records in reverse encounter order (the later half of the
batch is replayed before the earlier half). -/
theorem C7_undo_replay_semantics (fs : FS) (record : MoveRecord)
    (rest : List MoveRecord) (v : FileId) :
    (fs.existsPath record.destination = false →
      undoReplay fs (record :: rest) = undoReplay fs rest) ∧
    (fs.Wf → fs.getFile record.destination = some v →
      record.source ∉ fs.dirs →
      (∀ q : Path, q ≠ [] → q <+: record.source → q = record.source ∨ q ∈ fs.dirs) →
      ∃ fs2, undoStep fs record = .ok fs2 ∧
        fs2.getFile record.source = some v ∧
        (record.destination ≠ record.source → fs2.getFile record.destination = none) ∧
        fs2.dirs = fs.dirs ∧
        (∀ p : Path, p ≠ record.source → p ≠ record.destination →
          fs2.getFile p = fs.getFile p)) ∧
    (∀ fs2, undoStep fs record = .ok fs2 → fs.existsPath record.destination = true →
      ∀ q : Path, q ≠ [] → q <+: record.source.dropLast → q ∈ fs2.dirs) ∧
    (∀ l1 l2 : List MoveRecord,
      undoReplay fs (l1 ++ l2).reverse =
        match undoReplay fs l2.reverse with
        | .ok fsx => undoReplay fsx l1.reverse
        | .error e => .error e) := by
  refine ⟨?_, ?_, ?_, ?_⟩
  · intro h
    rw [undoReplay_cons, undoStep_skip h]
  · intro hwf hdst hsd hsp
    obtain ⟨fs2, hstep, hdirs, hfiles, hpt⟩ := undoStep_restore hwf hdst hsd hsp
    refine ⟨fs2, hstep, ?_, ?_, hdirs, ?_⟩
    · rw [hpt, if_pos rfl]
    · intro hne
      rw [hpt, if_neg hne, if_pos rfl]
    · intro p hps hpd
      rw [hpt, if_neg hps, if_neg hpd]
  · intro fs2 hstep hex q hq hqp
    unfold undoStep at hstep
    rw [hex] at hstep
    cases hmk : fs.makedirs record.source.dropLast with
    | error e =>
      rw [hmk] at hstep
      cases hstep
    | ok fs1 =>
      rw [hmk] at hstep
      dsimp only at hstep
      rw [move_dirs_eq hstep]
      exact (makedirs_ok_spec hmk).2.2.1 q hq hqp
  · intro l1 l2
    rw [List.reverse_append, undoReplay_append]

theorem C7_witness :
    (⟨[], []⟩ : FS).existsPath [r"t", r"x.txt"] = false ∧
    undoReplay ⟨[], []⟩
      [(⟨[r"s", r"x.txt"], [r"t", r"x.txt"]⟩ : MoveRecord)] = undoReplay ⟨[], []⟩ [] :=
  ⟨by decide,
    (C7_undo_replay_semantics ⟨[], []⟩ ⟨[r"s", r"x.txt"], [r"t", r"x.txt"]⟩ [] 0).1 (by decide)⟩

/-- C9 as stated is refuted: a successful `organize_by_type` call returns
`None` (the function is annotated `-> None` and has no return statement),
not the `OperationBatch`. -/
theorem C9_counterexample :
    (organize_by_type (fun _ => false) scnStore [r"s"] none).map (fun res => res.retval)
      = .ok none :=
  rfl

/-- C9 (amended).  A successful organize call returns `None`; the batch
describing the moves it performed is not returned but persisted: it becomes
the single stored history entry and is appended to the timeline, which is
where external callers obtain the operation list for display. -/
theorem C9_organize_records_batch (st : Store) (source : Path) (dd : Option Path)
    (res : OrgOk) (hwf : st.fs.Wf)
    (h : organize_by_type (fun _ => false) st source dd = .ok res) :
    res.retval = none ∧
    ∃ ops, res.store.histFile =
        [mkOperation (r"organize_by_type") source (dd.getD source) ops] ∧
      res.store.timeline = st.timeline ++
        [mkOperation (r"organize_by_type") source (dd.getD source) ops] := by
  obtain ⟨fs0, fs1, ops, _, _, _, _, _, _, _, hres⟩ := organize_ok_spec hwf h
  rw [hres]
  exact ⟨rfl, ops, rfl, rfl⟩

theorem C9_witness :
    scnStore.fs.Wf ∧
    (match organize_by_type (fun _ => false) scnStore [r"s"] none with
     | .ok res => res.retval = none ∧ res.store.histFile.length = 1
     | .error _ => False) := by
  refine ⟨by decide, ?_⟩
  cases h : organize_by_type (fun _ => false) scnStore [r"s"] none with
  | error e =>
    have hs : (organize_by_type (fun _ => false) scnStore [r"s"] none).toOption.isSome
        = true := by decide
    rw [h] at hs
    cases hs
  | ok res =>
    obtain ⟨h1, ops, h2, _⟩ := C9_organize_records_batch scnStore [r"s"] none res (by decide) h
    exact ⟨h1, by rw [h2]; rfl⟩

/-- C10.  The cleanup phase of undo, on a well-formed filesystem: it never
touches files; it never removes the target directory itself; every
directory strictly below the target that is empty when the cleanup starts
is removed (whether or not organize created it); no directory containing a
file somewhere beneath it is ever removed; and afterwards no directory
strictly below the target is empty (directories that became empty during
the bottom-up walk are removed as well). -/
theorem C10_cleanup_below (fs : FS) (target : Path) (hwf : fs.Wf) :
    ((fs.cleanupBelow target).files = fs.files) ∧
    (target ∈ fs.dirs → target ∈ (fs.cleanupBelow target).dirs) ∧
    (∀ d ∈ fs.dirs, target <+: d → d ≠ target → fs.isEmptyDir d = true →
      d ∉ (fs.cleanupBelow target).dirs) ∧
    (∀ d ∈ fs.dirs, fs.hasFileBelow d → d ∈ (fs.cleanupBelow target).dirs) ∧
    (∀ d ∈ (fs.cleanupBelow target).dirs, target <+: d → d ≠ target →
      (fs.cleanupBelow target).isEmptyDir d = false) := by
  refine ⟨cleanupBelow_files fs target, ?_, ?_, ?_, cleanupBelow_no_empty_below hwf⟩
  · intro h
    exact cleanupBelow_keeps_outside h (fun hc => hc.2 rfl)
  · intro d hd hpre hne hempty
    apply cleanupBelow_removes_fileless hwf hd hpre hne
    intro hb
    rw [not_empty_of_hasFileBelow hwf hb] at hempty
    cases hempty
  · intro d hd hb
    exact cleanupBelow_keeps_hasFileBelow hwf hd hb

theorem C10_witness :
    (⟨[([r"t", r"keep", r"f.txt"], 0)], [[r"t"], [r"t", r"keep"], [r"t", r"empty"]]⟩ : FS).Wf ∧
    [r"t", r"empty"] ∉
      ((⟨[([r"t", r"keep", r"f.txt"], 0)], [[r"t"], [r"t", r"keep"], [r"t", r"empty"]]⟩ : FS).cleanupBelow
        [r"t"]).dirs :=
  ⟨by decide,
    (C10_cleanup_below
      ⟨[([r"t", r"keep", r"f.txt"], 0)], [[r"t"], [r"t", r"keep"], [r"t", r"empty"]]⟩
      [r"t"] (by decide)).2.2.1 [r"t", r"empty"] (by decide) (by decide) (by decide) (by decide)⟩

theorem mem_take_get {α : Type} {l : List α} {k : Nat} {f : α} (h : f ∈ l.take k) :
    ∃ j, ∃ hj : j < l.length, j < k ∧ l.get ⟨j, hj⟩ = f := by
  obtain ⟨⟨j, hj⟩, hget⟩ := List.mem_iff_get.mp h
  have hjk : j < k := lt_of_lt_of_le hj (by rw [List.length_take]; exact min_le_left _ _)
  have hjl : j < l.length := lt_of_lt_of_le hj (by rw [List.length_take]; exact min_le_right _ _)
  refine ⟨j, hjl, hjk, ?_⟩
  rw [← hget]
  simp [List.get_take]

/-- C8.  A move failure partway through an organize batch (file number `k`
of the listing raises, every earlier file's move succeeds): the error
propagates to the caller carrying the filesystem at the failure point, the
history file and the timeline are untouched (the batch is only committed
after the whole loop), exactly the `k` earlier moves were performed and
remain in place (each completed record's destination holds the file that
was at its source), every file from position `k` onward is unprocessed
(still at its listed source path), and no file is lost or overwritten. -/
theorem C8_midbatch_failure (bad : Path → Bool) (st : Store) (source : Path)
    (dd : Option Path) (fs0 fsK fsK2 : FS) (opsK : List MoveRecord) (k : Nat)
    (hwf : st.fs.Wf)
    (hex : st.fs.existsPath source = true)
    (htp : (if st.fs.existsPath (dd.getD source) then .ok st.fs
        else st.fs.makedirs (dd.getD source) : Except FS FS) = .ok fs0)
    (hk : k < (fs0.listFiles source).length)
    (hpre : organizeLoop (fun _ => false) source (dd.getD source)
        ((fs0.listFiles source).take k) fs0 [] = .ok (fsK, opsK))
    (hmk : fsK.makedirs ((dd.getD source) ++
        [getCategory (splitext ((fs0.listFiles source).get ⟨k, hk⟩)).2]) = .ok fsK2)
    (hbadk : bad (source ++ [(fs0.listFiles source).get ⟨k, hk⟩]) = true)
    (hgood : ∀ f ∈ (fs0.listFiles source).take k, bad (source ++ [f]) = false) :
    organize_by_type bad st source dd = .error (.fsError, { st with fs := fsK2 }) ∧
    ({ st with fs := fsK2 } : Store).histFile = st.histFile ∧
    ({ st with fs := fsK2 } : Store).timeline = st.timeline ∧
    opsK.length = k ∧
    (∀ r ∈ opsK, fsK2.getFile r.destination = st.fs.getFile r.source) ∧
    (∀ j, ∀ hj : j < (fs0.listFiles source).length, k ≤ j →
      fsK2.getFile (source ++ [(fs0.listFiles source).get ⟨j, hj⟩]) =
        st.fs.getFile (source ++ [(fs0.listFiles source).get ⟨j, hj⟩])) ∧
    (fsK2.files.map Prod.snd).Perm (st.fs.files.map Prod.snd) := by
  have hfw0 : fs0.files = st.fs.files ∧ fs0.Wf := by
    by_cases het : st.fs.existsPath (dd.getD source) = true
    · rw [if_pos het] at htp
      have := htp
      simp only [Except.ok.injEq] at this
      rw [← this]
      exact ⟨rfl, hwf⟩
    · rw [if_neg het] at htp
      exact ⟨(makedirs_ok_spec htp).1, makedirs_wf hwf htp⟩
  obtain ⟨hf0, hwf0⟩ := hfw0
  have hmem : ∀ f ∈ (fs0.listFiles source).take k, (source ++ [f]) ∈ fs0.filePaths :=
    fun f hf => mem_listFiles.mp (List.take_subset _ _ hf)
  have hndfl : (fs0.listFiles source).Nodup := listFiles_nodup hwf0.1 source
  have hndtake : ((fs0.listFiles source).take k).Nodup :=
    hndfl.sublist (List.take_sublist _ _)
  obtain ⟨bWf, _, _, bLen, bSrc, bDst, bFrame, bPerm, _⟩ :=
    organizeLoop_bundle source (dd.getD source) ((fs0.listFiles source).take k)
      fs0 fsK opsK hwf0 hmem hndtake hpre
  have hK2files : fsK2.files = fsK.files := (makedirs_ok_spec hmk).1
  refine ⟨?_, rfl, rfl, ?_, ?_, ?_, ?_⟩
  · unfold organize_by_type
    rw [if_pos hex]
    dsimp only
    rw [htp]
    dsimp only
    have hsplit : fs0.listFiles source =
        (fs0.listFiles source).take k ++
          ((fs0.listFiles source).get ⟨k, hk⟩ :: (fs0.listFiles source).drop (k + 1)) := by
      rw [List.get_cons_drop]
      exact (List.take_append_drop k (fs0.listFiles source)).symm
    rw [hsplit, organizeLoop_append, organizeLoop_bad_agree bad source (dd.getD source) _ _ hgood,
      hpre]
    dsimp only
    rw [organizeLoop_cons, hmk]
    dsimp only
    rw [if_pos hbadk]
  · rw [bLen, List.length_take]
    exact Nat.min_eq_left hk.le
  · intro r hr
    rw [getFile_congr_files hK2files, bDst r hr, getFile_congr_files hf0]
  · intro j hj hkj
    have hp : (source ++ [(fs0.listFiles source).get ⟨j, hj⟩]) ∈ fs0.filePaths :=
      mem_listFiles.mp (List.get_mem _ _ _)
    have hne : ∀ f ∈ (fs0.listFiles source).take k,
        (source ++ [(fs0.listFiles source).get ⟨j, hj⟩]) ≠ source ++ [f] := by
      intro f hf heq
      obtain ⟨i, hi, hik, hgi⟩ := mem_take_get hf
      have hji : (fs0.listFiles source).get ⟨j, hj⟩ = (fs0.listFiles source).get ⟨i, hi⟩ := by
        rw [hgi]
        exact snoc_inj heq
      have : (⟨j, hj⟩ : Fin (fs0.listFiles source).length) = ⟨i, hi⟩ :=
        (List.Nodup.get_inj_iff hndfl).mp hji
      have hji2 : j = i := by
        have := congrArg Fin.val this
        simpa using this
      omega
    rw [getFile_congr_files hK2files, bFrame _ hp hne, getFile_congr_files hf0]
  · rw [hK2files, ← hf0]
    exact bPerm

theorem C8_witness :
    c8Store.fs.Wf ∧
    organize_by_type (fun p => p == ([r"s", r"b.txt"] : Path)) c8Store [r"s"] none =
      .error (.fsError, { c8Store with fs := c8fsK2 }) :=
  ⟨by decide,
    (C8_midbatch_failure (fun p => p == ([r"s", r"b.txt"] : Path)) c8Store [r"s"] none
      c8Store.fs c8fsK c8fsK2
      [(⟨[r"s", r"a.jpg"], [r"s", r"images", r"a.jpg"]⟩ : MoveRecord)] 1
      (by decide) (by decide) rfl (by decide) rfl rfl
      (by decide) (by decide)).1⟩

end FilesOrganizor
